import Mathlib

/-!
Verification of `generate-inspirehep-bibtex` (Python).

Strings are modelled as `List Char`; Python `dict`s as association lists in
insertion order.  Each definition below embeds the Python function of the same
name (noted in its doc comment); regular expressions are embedded as explicit
scanners over character lists, following the semantics of Python's `re`
module (leftmost, non-overlapping matches; greedy repetition).
-/

namespace InspireBib

/-- Python whitespace characters, as recognised by `str.strip()` and `\s`. -/

def isPySpace (c : Char) : Bool :=
  c = ' ' || c = '\t' || c = '\n' || c = '\r' || c = '\x0B' || c = '\x0C'

/-- Embeds Python `str.strip()`: drop whitespace from both ends. -/

def pyStrip (s : List Char) : List Char :=
  ((s.dropWhile isPySpace).reverse.dropWhile isPySpace).reverse

/-- One step of `pySplit`: either start a fresh piece after a separator, or
prepend the character to the first piece of the remainder. -/

def pySplitStep (sep c : Char) (r : List (List Char)) : List (List Char) :=
  if c = sep then [] :: r
  else
    match r with
    | [] => [[c]]
    | p :: ps => (c :: p) :: ps

/-- Embeds Python `str.split(sep)` for a one-character separator:
`"a,,b".split(',') == ["a","","b"]`, `"".split(',') == [""]`. -/

def pySplit (sep : Char) : List Char → List (List Char)
  | [] => [[]]
  | c :: cs => pySplitStep sep c (pySplit sep cs)

/-- Embeds Python `sep.join(pieces)` for a one-character separator. -/

def joinSep (sep : Char) : List (List Char) → List Char
  | [] => []
  | [p] => p
  | p :: ps => p ++ sep :: joinSep sep ps

/-- Association-list lookup, modelling Python `dict` indexing/membership. -/

def alookup (k : List Char) : List (List Char × List Char) → Option (List Char)
  | [] => none
  | (k', v) :: r => if k' = k then some v else alookup k r

/-! ## key_identifier.py -/

/-- Embeds `KeyType` from `key_identifier.py`. -/

inductive KeyType where
  | INSPIREHEP
  | INSPIREHEP_BIBTEX
  | ARXIV
  | UNKNOWN
deriving DecidableEq, Repr

/-- ASCII digit, modelling `\d` on the inputs this program handles. -/

def isAsciiDigit (c : Char) : Bool := '0' ≤ c && c ≤ '9'

/-- ASCII letter, modelling `[A-Za-z]`. -/

def isAsciiAlpha (c : Char) : Bool := ('A' ≤ c && c ≤ 'Z') || ('a' ≤ c && c ≤ 'z')

/-- Word character, modelling `\w` / `[A-Za-z0-9_]`. -/

def isWordChar (c : Char) : Bool := isAsciiAlpha c || isAsciiDigit c || c = '_'

/-- Embeds `self.inspirehep_pattern = re.compile(r'^\d+$')` (full match). -/

def matchInspirehep (k : List Char) : Bool := !k.isEmpty && k.all isAsciiDigit

/-- Embeds `self.inspirehep_bibtex_pattern`:
`^[A-Za-z][A-Za-z0-9_]*:\d{4}[a-zA-Z]{3}$`.  The class `[A-Za-z0-9_]*` is
greedy and cannot contain `:`, so it takes the maximal word-character run. -/

def matchInspirehepBibtex (k : List Char) : Bool :=
  match k with
  | [] => false
  | c :: rest =>
    isAsciiAlpha c &&
    (match rest.dropWhile isWordChar with
     | ':' :: t =>
       t.length == 7 && (t.take 4).all isAsciiDigit && (t.drop 4).all isAsciiAlpha
     | _ => false)

/-- Tail `\d{4,5}(v\d+)?$` of the new-style arXiv pattern: the greedy digit
run must have length 4 or 5 (a run of 6 or more digits can never leave a
following `v` or end-of-string, even after backtracking). -/

def arxivNumTail (u : List Char) : Bool :=
  ((u.takeWhile isAsciiDigit).length == 4 || (u.takeWhile isAsciiDigit).length == 5) &&
  (match u.dropWhile isAsciiDigit with
   | [] => true
   | 'v' :: ds => !ds.isEmpty && ds.all isAsciiDigit
   | _ => false)

/-- Embeds `self.arxiv_new_pattern = re.compile(r'^\d{4}\.\d{4,5}(v\d+)?$')`. -/

def matchArxivNew (k : List Char) : Bool :=
  (k.take 4).length == 4 && (k.take 4).all isAsciiDigit &&
  (match k.drop 4 with
   | '.' :: u => arxivNumTail u
   | _ => false)

/-- Tail `\d{7}(v\d+)?$` of the old-style arXiv pattern. -/

def arxivOldNum (u : List Char) : Bool :=
  (u.take 7).length == 7 && (u.take 7).all isAsciiDigit &&
  (match u.drop 7 with
   | [] => true
   | 'v' :: ds => !ds.isEmpty && ds.all isAsciiDigit
   | _ => false)

/-- Subject-class character `[a-z-]` under `re.IGNORECASE`. -/

def isSubjChar (c : Char) : Bool := isAsciiAlpha c || c = '-'

/-- Embeds `self.arxiv_old_pattern`:
`^[a-z-]+(\.[A-Z]{2})?\/\d{7}(v\d+)?$` with `re.IGNORECASE`.  The class
`[a-z-]+` cannot contain `.` or `/`, so it takes the maximal run; the
optional group must be taken exactly when a `.` follows. -/

def matchArxivOld (k : List Char) : Bool :=
  !(k.takeWhile isSubjChar).isEmpty &&
  (match k.dropWhile isSubjChar with
   | '.' :: a :: b :: '/' :: u => isAsciiAlpha a && isAsciiAlpha b && arxivOldNum u
   | '/' :: u => arxivOldNum u
   | _ => false)

/-- Embeds `self.arxiv_prefix_pattern = re.compile(r'^arxiv:(.+)$', re.IGNORECASE)`
used with `.match`: on success returns `group(1)`.  In Python, `.` does not
match a newline and `$` also matches just before a trailing newline. -/

def arxivPrefixMatch (s : List Char) : Option (List Char) :=
  if (s.take 6).map Char.toLower = ['a', 'r', 'x', 'i', 'v', ':'] then
    let r := s.drop 6
    let body := if r.getLast? = some '\n' then r.dropLast else r
    if !body.isEmpty && !(body.contains '\n') then some body else none
  else none

/-- Embeds `KeyIdentifier.identify_key_type` from `key_identifier.py`:
strip, drop an `arXiv:` prefix if present, then test the patterns in order
(arXiv new/old, then InspireHEP BibTeX, then numeric InspireHEP id). -/

def identify_key_type (key : List Char) : KeyType :=
  let k1 := pyStrip key
  let k2 := match arxivPrefixMatch k1 with
            | some b => b
            | none => k1
  if matchArxivNew k2 || matchArxivOld k2 then KeyType.ARXIV
  else if matchInspirehepBibtex k2 then KeyType.INSPIREHEP_BIBTEX
  else if matchInspirehep k2 then KeyType.INSPIREHEP
  else KeyType.UNKNOWN

/-- Embeds `KeyIdentifier.normalize_key`: strip, then remove an `arXiv:`
prefix if the prefix pattern matches. -/

def normalize_key (key : List Char) : List Char :=
  let k1 := pyStrip key
  match arxivPrefixMatch k1 with
  | some b => b
  | none => k1

/-- Result of `KeyIdentifier.process_keys`: the four category buckets. -/

structure CategorizedKeys where
  inspirehep : List (List Char)
  inspirehep_bibtex : List (List Char)
  arxiv : List (List Char)
  unknown : List (List Char)
deriving DecidableEq, Repr

/-- Embeds `KeyIdentifier.process_keys`: classify each key; the first three
buckets receive the normalized key, the `unknown` bucket receives the key
exactly as given. -/

def process_keys (keys : List (List Char)) : CategorizedKeys :=
  match keys with
  | [] => ⟨[], [], [], []⟩
  | k :: rest =>
    let r := process_keys rest
    match identify_key_type k with
    | KeyType.INSPIREHEP => { r with inspirehep := normalize_key k :: r.inspirehep }
    | KeyType.INSPIREHEP_BIBTEX =>
        { r with inspirehep_bibtex := normalize_key k :: r.inspirehep_bibtex }
    | KeyType.ARXIV => { r with arxiv := normalize_key k :: r.arxiv }
    | KeyType.UNKNOWN => { r with unknown := k :: r.unknown }

/-! ## latex_parser.py — comment stripping -/

/-- Embeds the comment-stripping `while` loop inside
`LaTeXParser.extract_citations`, one line at a time.  The loop examines the
`%` characters of the line from left to right and truncates the line at the
first `%` that is at position 0 or not immediately preceded by `\`; `escaped`
records whether the previous character was `\` (initially there is none). -/

def stripLineAux : Bool → List Char → List Char
  | _, [] => []
  | escaped, c :: cs =>
    if c = '%' && !escaped then []
    else c :: stripLineAux (c = '\\') cs

/-- Comment stripping applied to one line (no previous character at start). -/

def stripLine (line : List Char) : List Char := stripLineAux false line

/-! ## citation-marker scanning (`re.compile(r'\\cite\{([^}]+)\}')`) -/

/-- Literal characters of `\cite{`. -/

def citeHead : List Char := ['\\', 'c', 'i', 't', 'e', '{']

/-- Attempts to match `\\cite\{([^}]+)\}` at the start of `s`.  The greedy
class `[^}]+` takes the maximal run of non-`}` characters, which must be
nonempty and be followed by `}`.  Returns the captured payload and the
remainder after the closing brace. -/

def matchCite (s : List Char) : Option (List Char × List Char) :=
  if s.take 6 = citeHead then
    match (s.drop 6).dropWhile (fun c => c != '}') with
    | x :: r =>
      if x = '}' then
        if ((s.drop 6).takeWhile (fun c => c != '}')).isEmpty then none
        else some ((s.drop 6).takeWhile (fun c => c != '}'), r)
      else none
    | [] => none
  else none

/-- One segment of a scanned document: a character outside any citation
marker, or the payload of one `\cite{...}` marker. -/

inductive Seg where
  | chr (c : Char)
  | cite (payload : List Char)
deriving DecidableEq, Repr

/-- Fuelled scanner: tries `matchCite` at each position, consuming whole
matches (non-overlapping, leftmost first), exactly as `re` scans for
`findall`/`sub`.  The fuel is an upper bound on the remaining length. -/

def parseCitesF : Nat → List Char → List Seg
  | 0, _ => []
  | _ + 1, [] => []
  | fuel + 1, c :: cs =>
    match matchCite (c :: cs) with
    | some (p, rest) => Seg.cite p :: parseCitesF fuel rest
    | none => Seg.chr c :: parseCitesF fuel cs

/-- Scan a document for `\cite{...}` markers. -/

def parseCites (s : List Char) : List Seg := parseCitesF s.length s

/-- Payload post-processing shared by extractor and rewriter: split on `,`,
strip each piece, keep the nonempty ones (`[k.strip() for k in xs.split(',') if k.strip()]`). -/

def payloadKeys (p : List Char) : List (List Char) :=
  ((pySplit ',' p).map pyStrip).filter (fun k => !k.isEmpty)

/-- Keys delivered by `self.cite_pattern.findall` plus the per-marker
split/strip/filter loop of `extract_citations`, before deduplication. -/

def rawCiteKeys (s : List Char) : List (List Char) :=
  (parseCites s).flatMap
    (fun seg => match seg with
      | Seg.chr _ => []
      | Seg.cite p => payloadKeys p)

/-- Embeds `LaTeXParser.extract_citations`: split into lines, strip comments
per line, rejoin with newlines, scan for markers, split/strip/filter the
payloads, and deduplicate (`list(set(...))`; the Python set order is
unspecified, so the result is meaningful only up to membership). -/

def extract_citations (latex_content : List Char) : List (List Char) :=
  (rawCiteKeys (joinSep '\n' ((pySplit '\n' latex_content).map stripLine))).dedup

/-- Literal characters of `\bibliography{`. -/

def bibHead : List Char :=
  ['\\', 'b', 'i', 'b', 'l', 'i', 'o', 'g', 'r', 'a', 'p', 'h', 'y', '{']

/-- Attempts to match `\\bibliography\{([^}]+)\}` at the start of `s`,
returning the captured payload. -/

def matchBib (s : List Char) : Option (List Char) :=
  if s.take 14 = bibHead then
    match (s.drop 14).dropWhile (fun c => c != '}') with
    | x :: _ =>
      if x = '}' then
        if ((s.drop 14).takeWhile (fun c => c != '}')).isEmpty then none
        else some ((s.drop 14).takeWhile (fun c => c != '}'))
      else none
    | [] => none
  else none

/-- First match of the bibliography pattern anywhere in `s` (`re.search`). -/

def searchBib : List Char → Option (List Char)
  | [] => none
  | c :: cs =>
    match matchBib (c :: cs) with
    | some p => some p
    | none => searchBib cs

/-- Embeds `LaTeXParser.extract_bibliography_name`: `search` on the raw
document text (no comment stripping), then `.strip()` on the capture. -/

def extract_bibliography_name (latex_content : List Char) : Option (List Char) :=
  (searchBib latex_content).map pyStrip

/-! ## bibtex_processor.py -/

/-- Non-separator characters of the capture `[^,\s]+` in the entry-key
pattern. -/

def isKeyChar (c : Char) : Bool := !(c = ',' || isPySpace c)

/-- Attempts to match `@\w+\{([^,\s]+),` at the start of `s`
(`re.IGNORECASE` is irrelevant: `\w` is case-insensitive already).  Both
repetitions are greedy over classes excluding their follower, so they take
maximal runs. -/

def matchEntryKey (s : List Char) : Option (List Char) :=
  match s with
  | '@' :: t =>
    if (t.takeWhile isWordChar).isEmpty then none
    else
      match t.dropWhile isWordChar with
      | '{' :: u =>
        let k := u.takeWhile isKeyChar
        (match u.dropWhile isKeyChar with
         | ',' :: _ => if k.isEmpty then none else some k
         | _ => none)
      | _ => none
  | _ => none

/-- Embeds `BibTeXProcessor.extract_bibtex_key`: first match of the entry-key
pattern anywhere in the record text (`re.search`), `.strip()` applied to the
capture; `None` when there is no match. -/

def extract_bibtex_key : List Char → Option (List Char)
  | [] => none
  | c :: cs =>
    match matchEntryKey (c :: cs) with
    | some k => some (pyStrip k)
    | none => extract_bibtex_key cs

/-- Result of `BibTeXProcessor.process_and_deduplicate`: the deduplicated
entries (`{standard_key: bibtex_entry}`), the key mapping
(`{original_key: standard_key}`), both in insertion order, and the raw keys
for which a could-not-extract warning was printed. -/

structure PADResult where
  deduplicated_entries : List (List Char × List Char)
  key_mapping : List (List Char × List Char)
  warnings : List (List Char)
deriving DecidableEq, Repr

/-- Loop of `process_and_deduplicate`: `d` is `deduplicated_entries`, `m` is
`key_mapping`, `sn` is `seen_keys` (standard key → first original key), `w`
collects the warnings printed for failed extractions. -/

def padAux (d m sn : List (List Char × List Char)) (w : List (List Char)) :
    List (List Char × List Char) → PADResult
  | [] => ⟨d, m, w⟩
  | (ok, e) :: rest =>
    match extract_bibtex_key e with
    | some sk =>
      if (alookup sk sn).isSome then padAux d (m ++ [(ok, sk)]) sn w rest
      else padAux (d ++ [(sk, e)]) (m ++ [(ok, sk)]) (sn ++ [(sk, ok)]) w rest
    | none =>
      if (alookup ok sn).isSome then padAux d (m ++ [(ok, ok)]) sn (w ++ [ok]) rest
      else padAux (d ++ [(ok, e)]) (m ++ [(ok, ok)]) (sn ++ [(ok, ok)]) (w ++ [ok]) rest

/-- Embeds `BibTeXProcessor.process_and_deduplicate` over the ordered
`(original_key, bibtex_entry)` pairs of the input dict. -/

def process_and_deduplicate (entries : List (List Char × List Char)) : PADResult :=
  padAux [] [] [] [] entries

/-- Embeds the inner function `replace_cite_keys` of
`create_standardized_latex` applied to one marker payload: split the payload
on `,`, strip, drop empty segments, replace the segments found in the key
mapping (counting them), and rejoin with single commas.  Returns the new
payload and the number of replacements made in this marker. -/

def replace_cite_keys (key_mapping : List (List Char × List Char))
    (p : List Char) : List Char × Nat :=
  let news := (payloadKeys p).map
    (fun k => match alookup k key_mapping with
      | some v => (v, 1)
      | none => (k, 0))
  (joinSep ',' (news.map Prod.fst), (news.map Prod.snd).sum)

/-- Embeds `BibTeXProcessor.create_standardized_latex` (its text
transformation; the file write is I/O outside the model):
`cite_pattern.sub(replace_cite_keys, latex_content)` rebuilds each marker as
`\cite{` + new payload + `}` and leaves everything else unchanged, while the
`nonlocal replacements_made` counter accumulates over the markers.  Returns
the rewritten text and `replacements_made`. -/

def create_standardized_latex (key_mapping : List (List Char × List Char))
    (latex_content : List Char) : List Char × Nat :=
  let segs := parseCites latex_content
  (segs.flatMap
     (fun seg => match seg with
       | Seg.chr c => [c]
       | Seg.cite p => citeHead ++ (replace_cite_keys key_mapping p).1 ++ ['}']),
   (segs.map
     (fun seg => match seg with
       | Seg.chr _ => 0
       | Seg.cite p => (replace_cite_keys key_mapping p).2)).sum)

/-- Canonical (standard) key chosen for one `(original_key, entry)` pair:
the key extracted from the entry text, or the original key as fallback. -/

def stdKey (pr : List Char × List Char) : List Char :=
  match extract_bibtex_key pr.2 with
  | some k => k
  | none => pr.1

/-- Specification of the incremental deduplication: keep, for each canonical
key not in `seen`, the first pair resolving to it. -/

def dedupFrom (seen : List (List Char)) :
    List (List Char × List Char) → List (List Char × List Char)
  | [] => []
  | pr :: rest =>
    if stdKey pr ∈ seen then dedupFrom seen rest
    else (stdKey pr, pr.2) :: dedupFrom (seen ++ [stdKey pr]) rest

/-- First pair of the list whose canonical key is `c`. -/

def firstWithStd (c : List Char) :
    List (List Char × List Char) → Option (List Char × List Char)
  | [] => none
  | pr :: rest => if stdKey pr = c then some pr else firstWithStd c rest

/-- Original text of one scanned segment. -/

def segText : Seg → List Char
  | Seg.chr c => [c]
  | Seg.cite p => citeHead ++ p ++ ['}']

/-- Position `j` of `l` holds a comment-starting `%`: it is a `%` that is at
the line start (where `esc` tells whether a preceding backslash is assumed)
or not immediately preceded by a backslash. -/

def UnescPct (esc : Bool) (l : List Char) (j : Nat) : Prop :=
  l.get? j = some '%' ∧
    (if j = 0 then esc = false else l.get? (j - 1) ≠ some '\\')

/-- Rendered text of one segment after transforming marker payloads by `f`. -/

def renderSegF (f : List Char → List Char) : Seg → List Char
  | Seg.chr c => [c]
  | Seg.cite p => citeHead ++ f p ++ ['}']

/-- Full rewriter output for payload transformation `f` (the text part of
`cite_pattern.sub`). -/

def renderOut (f : List Char → List Char) (s : List Char) : List Char :=
  (parseCites s).flatMap (renderSegF f)

/-- Segments of the re-parsed output arising from one input segment: a plain
character stays itself; a marker whose new payload is empty renders as
`\cite{}` which no longer parses as a marker; any other marker survives with
the transformed payload. -/

def expandSeg (f : List Char → List Char) : Seg → List Seg
  | Seg.chr c => [Seg.chr c]
  | Seg.cite p =>
    if f p = [] then
      [Seg.chr '\\', Seg.chr 'c', Seg.chr 'i', Seg.chr 't', Seg.chr 'e',
       Seg.chr '{', Seg.chr '}']
    else [Seg.cite (f p)]

/-- New key list produced inside `replace_cite_keys` for one payload. -/

def newKeys (R : List (List Char × List Char)) (p : List Char) : List (List Char) :=
  (((payloadKeys p).map
    (fun k => match alookup k R with
      | some v => (v, 1)
      | none => (k, 0)))).map Prod.fst

/-! ## Generic lemmas about the string helpers -/

theorem pySplit_cons (sep c : Char) (cs : List Char) :
    pySplit sep (c :: cs) = pySplitStep sep c (pySplit sep cs) := by
  simp only [pySplit]

theorem pySplit_cons_sep (sep : Char) (cs : List Char) :
    pySplit sep (sep :: cs) = [] :: pySplit sep cs := by
  rw [pySplit_cons]; unfold pySplitStep; rw [if_pos rfl]

theorem pySplit_ne_nil (sep : Char) (s : List Char) : pySplit sep s ≠ [] := by
  cases s with
  | nil => simp [pySplit]
  | cons c cs =>
    rw [pySplit_cons]
    unfold pySplitStep
    by_cases h : c = sep
    · simp [h]
    · rw [if_neg h]
      cases hh : pySplit sep cs <;> simp

theorem pySplit_cons_ne (sep c : Char) {cs : List Char} (h : ¬ c = sep)
    {p : List Char} {ps : List (List Char)} (hh : pySplit sep cs = p :: ps) :
    pySplit sep (c :: cs) = (c :: p) :: ps := by
  rw [pySplit_cons, hh]; unfold pySplitStep; rw [if_neg h]

theorem pySplit_append (sep : Char) (a b : List Char) :
    pySplit sep (a ++ sep :: b) = pySplit sep a ++ pySplit sep b := by
  induction a with
  | nil =>
    rw [List.nil_append, pySplit_cons_sep]
    rfl
  | cons c a ih =>
    by_cases h : c = sep
    · subst h
      rw [List.cons_append, pySplit_cons_sep, pySplit_cons_sep, ih]
      rfl
    · cases hh : pySplit sep a with
      | nil => exact absurd hh (pySplit_ne_nil sep a)
      | cons p ps =>
        have hh' : pySplit sep (a ++ sep :: b) = p :: (ps ++ pySplit sep b) := by
          rw [ih, hh]; rfl
        rw [List.cons_append, pySplit_cons_ne sep c h hh',
            pySplit_cons_ne sep c h hh]
        rfl

theorem pySplit_of_not_mem (sep : Char) (s : List Char) (h : sep ∉ s) :
    pySplit sep s = [s] := by
  induction s with
  | nil => rfl
  | cons c cs ih =>
    have hc : ¬ c = sep := fun hc => h (hc ▸ List.mem_cons_self c cs)
    have hcs : sep ∉ cs := fun hm => h (List.mem_cons_of_mem c hm)
    rw [pySplit_cons_ne sep c hc (ih hcs)]

theorem pySplit_joinSep (sep : Char) (l : List (List Char)) (h : l ≠ []) :
    pySplit sep (joinSep sep l) = l.flatMap (pySplit sep) := by
  induction l with
  | nil => exact absurd rfl h
  | cons p rest ih =>
    cases rest with
    | nil => simp [joinSep]
    | cons q r =>
      have : joinSep sep (p :: q :: r) = p ++ sep :: joinSep sep (q :: r) := rfl
      rw [this, pySplit_append, ih (by simp)]
      simp

theorem not_mem_of_mem_pySplit (sep : Char) (s : List Char) :
    ∀ q ∈ pySplit sep s, sep ∉ q := by
  induction s with
  | nil =>
    intro q hq
    have : q = [] := by simpa [pySplit] using hq
    simp [this]
  | cons c cs ih =>
    intro q hq
    by_cases hc : c = sep
    · subst hc
      rw [pySplit_cons_sep] at hq
      rcases List.mem_cons.mp hq with hq | hq
      · simp [hq]
      · exact ih q hq
    · cases hh : pySplit sep cs with
      | nil => exact absurd hh (pySplit_ne_nil sep cs)
      | cons p ps =>
        rw [pySplit_cons_ne sep c hc hh] at hq
        rcases List.mem_cons.mp hq with hq | hq
        · subst hq
          intro hm
          rcases List.mem_cons.mp hm with hm | hm
          · exact hc hm.symm
          · exact ih p (hh ▸ List.mem_cons_self p ps) hm
        · exact ih q (hh ▸ List.mem_cons_of_mem p hq)

theorem mem_of_mem_pySplit (sep : Char) (s : List Char) :
    ∀ q ∈ pySplit sep s, ∀ c ∈ q, c ∈ s := by
  induction s with
  | nil =>
    intro q hq c hc
    have : q = [] := by simpa [pySplit] using hq
    subst this; simp at hc
  | cons x cs ih =>
    intro q hq c hc
    by_cases hx : x = sep
    · subst hx
      rw [pySplit_cons_sep] at hq
      rcases List.mem_cons.mp hq with hq | hq
      · subst hq; simp at hc
      · exact List.mem_cons_of_mem _ (ih q hq c hc)
    · cases hh : pySplit sep cs with
      | nil => exact absurd hh (pySplit_ne_nil sep cs)
      | cons p ps =>
        rw [pySplit_cons_ne sep x hx hh] at hq
        rcases List.mem_cons.mp hq with hq | hq
        · subst hq
          rcases List.mem_cons.mp hc with hc | hc
          · exact hc ▸ List.mem_cons_self x cs
          · exact List.mem_cons_of_mem _
              (ih p (hh ▸ List.mem_cons_self p ps) c hc)
        · exact List.mem_cons_of_mem _
            (ih q (hh ▸ List.mem_cons_of_mem p hq) c hc)

theorem mem_of_mem_joinSep (sep : Char) {c : Char} {l : List (List Char)}
    (h : c ∈ joinSep sep l) : c = sep ∨ ∃ q ∈ l, c ∈ q := by
  induction l with
  | nil => simp [joinSep] at h
  | cons p rest ih =>
    cases rest with
    | nil =>
      simp only [joinSep] at h
      exact Or.inr ⟨p, List.mem_cons_self _ _, h⟩
    | cons q r =>
      have : joinSep sep (p :: q :: r) = p ++ sep :: joinSep sep (q :: r) := rfl
      rw [this] at h
      rcases List.mem_append.mp h with h | h
      · exact Or.inr ⟨p, List.mem_cons_self _ _, h⟩
      · rcases List.mem_cons.mp h with h | h
        · exact Or.inl h
        · rcases ih h with h | ⟨q', hq', hc⟩
          · exact Or.inl h
          · exact Or.inr ⟨q', List.mem_cons_of_mem _ hq', hc⟩

theorem joinSep_ne_nil (sep : Char) {k : List Char} {l : List (List Char)}
    (hk : k ∈ l) (hne : k ≠ []) : joinSep sep l ≠ [] := by
  induction l with
  | nil => simp at hk
  | cons p rest ih =>
    cases rest with
    | nil =>
      simp only [List.mem_cons, List.not_mem_nil, or_false] at hk
      subst hk; simpa [joinSep] using hne
    | cons q r =>
      have : joinSep sep (p :: q :: r) = p ++ sep :: joinSep sep (q :: r) := rfl
      rw [this]
      cases p <;> simp

theorem flatMap_eq_self {α : Type} (l : List α) (f : α → List α)
    (h : ∀ x ∈ l, f x = [x]) : l.flatMap f = l := by
  induction l with
  | nil => rfl
  | cons x xs ih =>
    simp only [List.flatMap_cons, h x (List.mem_cons_self x xs)]
    rw [ih fun y hy => h y (List.mem_cons_of_mem x hy)]
    rfl

theorem dropWhile_head?_false {p : Char → Bool} {l : List Char} {a : Char}
    (h : (l.dropWhile p).head? = some a) : p a = false := by
  induction l with
  | nil => simp [List.dropWhile] at h
  | cons c cs ih =>
    rw [List.dropWhile_cons] at h
    by_cases hc : p c
    · rw [if_pos hc] at h; exact ih h
    · rw [if_neg hc] at h
      simp only [List.head?_cons, Option.some.injEq] at h
      subst h; exact Bool.eq_false_iff.mpr hc

theorem dropWhile_of_head?_false {p : Char → Bool} {l : List Char}
    (h : ∀ a, l.head? = some a → p a = false) : l.dropWhile p = l := by
  cases l with
  | nil => rfl
  | cons c cs =>
    have hpc := h c rfl
    rw [List.dropWhile_cons, if_neg (by simp [hpc])]

theorem dropWhile_idem (p : Char → Bool) (l : List Char) :
    (l.dropWhile p).dropWhile p = l.dropWhile p := by
  apply dropWhile_of_head?_false
  intro a ha
  exact dropWhile_head?_false ha

theorem dropWhile_is_suffix (p : Char → Bool) (l : List Char) :
    ∃ t, t ++ l.dropWhile p = l := by
  induction l with
  | nil => exact ⟨[], rfl⟩
  | cons c cs ih =>
    by_cases hc : p c
    · rcases ih with ⟨t, ht⟩
      exact ⟨c :: t, by rw [List.dropWhile_cons, if_pos hc]; simp [ht]⟩
    · exact ⟨[], by rw [List.dropWhile_cons, if_neg hc]; rfl⟩

theorem mem_of_mem_dropWhile {p : Char → Bool} {c : Char} {l : List Char}
    (h : c ∈ l.dropWhile p) : c ∈ l := by
  rcases dropWhile_is_suffix p l with ⟨t, ht⟩
  rw [← ht]; exact List.mem_append_right t h

theorem mem_of_mem_pyStrip {c : Char} {s : List Char} (h : c ∈ pyStrip s) : c ∈ s := by
  unfold pyStrip at h
  rw [List.mem_reverse] at h
  have h1 := mem_of_mem_dropWhile h
  rw [List.mem_reverse] at h1
  exact mem_of_mem_dropWhile h1

theorem pyStrip_idem (s : List Char) : pyStrip (pyStrip s) = pyStrip s := by
  unfold pyStrip
  set f := (s.dropWhile isPySpace) with hf
  set u := (f.reverse.dropWhile isPySpace).reverse with hu
  have hfront : u.dropWhile isPySpace = u := by
    apply dropWhile_of_head?_false
    intro a ha
    rcases dropWhile_is_suffix isPySpace f.reverse with ⟨t, ht⟩
    have hfu : f = u ++ t.reverse := by
      have := congrArg List.reverse ht
      simpa [hu] using this.symm
    cases hcu : u with
    | nil => rw [hcu] at ha; simp at ha
    | cons b bs =>
      have hfh : f.head? = some b := by rw [hfu, hcu]; rfl
      have hb : isPySpace b = false := by
        have : (s.dropWhile isPySpace).head? = some b := by rw [← hf]; exact hfh
        exact dropWhile_head?_false this
      rw [hcu] at ha
      simp only [List.head?_cons, Option.some.injEq] at ha
      subst ha; exact hb
  rw [hfront]
  have : u.reverse = f.reverse.dropWhile isPySpace := by rw [hu, List.reverse_reverse]
  rw [this, dropWhile_idem]

/-! ## Claim C4 — classification totality -/

/-- C4: `identify_key_type` is a total function on strings — every input
(including the empty string) is assigned one of the four `KeyType` values
and no error is possible — and the empty string classifies as `UNKNOWN`. -/

theorem identify_key_type_total_and_empty_unknown :
    (∀ k : List Char,
      identify_key_type k = KeyType.ARXIV ∨
      identify_key_type k = KeyType.INSPIREHEP_BIBTEX ∨
      identify_key_type k = KeyType.INSPIREHEP ∨
      identify_key_type k = KeyType.UNKNOWN) ∧
    identify_key_type [] = KeyType.UNKNOWN := by
  refine ⟨fun k => ?_, by decide⟩
  cases h : identify_key_type k <;> simp

/-! ## Claim C8 — unknown keys are kept verbatim -/

/-- C8 (counterexample): for the input `" x "` (which matches no
classification rule) the entry placed in the `unknown` bucket is the
original raw key verbatim, which differs from its trimmed form — the claim
that the retained entry equals the trimmed original fails. -/

theorem process_keys_unknown_not_trimmed :
    identify_key_type [' ', 'x', ' '] = KeyType.UNKNOWN ∧
    (process_keys [[' ', 'x', ' ']]).unknown = [[' ', 'x', ' ']] ∧
    [' ', 'x', ' '] ≠ pyStrip [' ', 'x', ' '] := by decide

/-- C8 (amended): for every list of raw keys, the `unknown` bucket of
`process_keys` consists of exactly the unrecognized keys, each kept verbatim
as given (untrimmed, preprint prefix included), in order. -/

theorem process_keys_unknown_verbatim (keys : List (List Char)) :
    (process_keys keys).unknown =
      keys.filter (fun k => identify_key_type k = KeyType.UNKNOWN) := by
  induction keys with
  | nil => rfl
  | cons k rest ih =>
    cases h : identify_key_type k <;>
      simp [process_keys, h, ih, List.filter_cons]

/-! ## Claim C2 — idempotence of the rewriter: counterexample -/

/-- C2 (counterexample): with the rename map `{"a" ↦ "a"}` (a mapping the
deduplication step produces whenever a raw key already equals its canonical
key) and document `\cite{a}`, the second rewrite again reports one
replacement, so the claimed unconditional `replacementCount == 0` fails. -/

theorem rewrite_second_pass_count_nonzero :
    (create_standardized_latex [(['a'], ['a'])]
      ((create_standardized_latex [(['a'], ['a'])]
        ['\\', 'c', 'i', 't', 'e', '{', 'a', '}']).1)).2 ≠ 0 := by decide

/-! ## Claim C10 — empty payload segments are discarded -/

theorem replace_cite_keys_unmapped (R : List (List Char × List Char))
    (q : List Char) (hun : ∀ k ∈ payloadKeys q, alookup k R = none) :
    (replace_cite_keys R q).1 = joinSep ',' (payloadKeys q) ∧
    (replace_cite_keys R q).2 = 0 := by
  have hmap : ((payloadKeys q).map
      (fun k => match alookup k R with
        | some v => (v, 1)
        | none => (k, 0))) = (payloadKeys q).map (fun k => (k, 0)) := by
    apply List.map_congr_left
    intro k hk
    rw [hun k hk]
  have e1 : (replace_cite_keys R q).1 = joinSep ','
      ((((payloadKeys q).map
        (fun k => match alookup k R with
          | some v => (v, 1)
          | none => (k, 0)))).map Prod.fst) := rfl
  have e2 : (replace_cite_keys R q).2 =
      ((((payloadKeys q).map
        (fun k => match alookup k R with
          | some v => (v, 1)
          | none => (k, 0)))).map Prod.snd).sum := rfl
  constructor
  · rw [e1, hmap, List.map_map]
    congr 1
    conv_rhs => rw [← List.map_id (payloadKeys q)]
    apply List.map_congr_left
    intro k _
    rfl
  · rw [e2, hmap, List.map_map]
    apply List.sum_eq_zero
    intro x hx
    rcases List.mem_map.mp hx with ⟨k, _, hk⟩
    exact hk.symm

/-- C10: when a marker payload contains an empty segment (leading, trailing
or consecutive commas) the rewriter drops the empty segments and rejoins the
remaining trimmed segments with single commas; when moreover no segment is
in the rename map, the payload text still changes while the replacement
count stays zero (discarded segments are never counted). -/

theorem replace_cite_keys_drops_empty_segments
    (R : List (List Char × List Char)) (p : List Char) (hne : p ≠ [])
    (hemp : [] ∈ (pySplit ',' p).map pyStrip)
    (hun : ∀ k ∈ payloadKeys p, alookup k R = none) :
    (replace_cite_keys R p).1 = joinSep ',' (payloadKeys p) ∧
    (replace_cite_keys R p).1 ≠ p ∧
    (replace_cite_keys R p).2 = 0 := by
  rcases replace_cite_keys_unmapped R p hun with ⟨h1, h3⟩
  refine ⟨h1, ?_, h3⟩
  rw [h1]
  intro hjoin
  -- if the rejoined nonempty trimmed segments equalled p, then splitting p
  -- could not produce any empty stripped segment, contradicting `hemp`
  cases hkeys : payloadKeys p with
  | nil => rw [hkeys] at hjoin; exact hne (hjoin.symm ▸ rfl)
  | cons k0 ks =>
    have hkcf : ∀ k ∈ payloadKeys p, (',' : Char) ∉ k ∧ pyStrip k = k := by
      intro k hk
      unfold payloadKeys at hk
      rcases List.mem_filter.mp hk with ⟨hk', _⟩
      rcases List.mem_map.mp hk' with ⟨q, hq, hkq⟩
      subst hkq
      constructor
      · intro hcm
        exact not_mem_of_mem_pySplit ',' p q hq (mem_of_mem_pyStrip hcm)
      · exact pyStrip_idem q
    have hsplit : pySplit ',' p = payloadKeys p := by
      conv_lhs => rw [← hjoin]
      rw [pySplit_joinSep ',' _ (by rw [hkeys]; simp)]
      apply flatMap_eq_self
      intro k hk
      exact pySplit_of_not_mem ',' k (hkcf k hk).1
    have hmapstrip : (pySplit ',' p).map pyStrip = payloadKeys p := by
      rw [hsplit]
      conv_rhs => rw [← List.map_id (payloadKeys p)]
      apply List.map_congr_left
      intro k hk
      exact (hkcf k hk).2
    rw [hmapstrip] at hemp
    unfold payloadKeys at hemp
    rcases List.mem_filter.mp hemp with ⟨_, hbad⟩
    simp at hbad

/-- C10 (witness): the behaviour at the payload `a,,b` with an empty rename
map: the payload has an empty stripped segment, no segment is mapped, and the
rewritten payload differs from the original with a zero replacement count. -/

theorem replace_cite_keys_drops_empty_segments_witness :
    (['a', ',', ',', 'b'] : List Char) ≠ [] ∧
    [] ∈ (pySplit ',' ['a', ',', ',', 'b']).map pyStrip ∧
    (∀ k ∈ payloadKeys ['a', ',', ',', 'b'],
      alookup k ([] : List (List Char × List Char)) = none) ∧
    ((replace_cite_keys [] ['a', ',', ',', 'b']).1 =
        joinSep ',' (payloadKeys ['a', ',', ',', 'b']) ∧
      (replace_cite_keys [] ['a', ',', ',', 'b']).1 ≠ ['a', ',', ',', 'b'] ∧
      (replace_cite_keys [] ['a', ',', ',', 'b']).2 = 0) :=
  ⟨by decide, by decide, by decide,
    replace_cite_keys_drops_empty_segments [] ['a', ',', ',', 'b']
      (by decide) (by decide) (by decide)⟩

/-! ## Canonicalization (`process_and_deduplicate`) — specification functions -/

theorem alookup_isSome_iff (k : List Char) (l : List (List Char × List Char)) :
    (alookup k l).isSome ↔ k ∈ l.map Prod.fst := by
  induction l with
  | nil => simp [alookup]
  | cons pr rest ih =>
    rcases pr with ⟨k', v⟩
    by_cases h : k' = k
    · simp [alookup, h]
    · simp [alookup, h, ih, Ne.symm h]

theorem padAux_spec :
    ∀ (rest : List (List Char × List Char)) d m sn (w : List (List Char)),
    sn.map Prod.fst = d.map Prod.fst →
    padAux d m sn w rest =
      ⟨d ++ dedupFrom (d.map Prod.fst) rest,
       m ++ rest.map (fun pr => (pr.1, stdKey pr)),
       w ++ (rest.filter (fun pr => (extract_bibtex_key pr.2).isNone)).map Prod.fst⟩ := by
  intro rest
  induction rest with
  | nil =>
    intro d m sn w hsn
    simp [padAux, dedupFrom]
  | cons pr rest ih =>
    intro d m sn w hsn
    rcases pr with ⟨ok, e⟩
    cases hx : extract_bibtex_key e with
    | some sk =>
      have hstd : stdKey (ok, e) = sk := by simp [stdKey, hx]
      by_cases hseen : (alookup sk sn).isSome
      · have hmem : sk ∈ d.map Prod.fst := by
          rw [← hsn]; exact (alookup_isSome_iff sk sn).mp hseen
        have hL : padAux d m sn w ((ok, e) :: rest) =
            padAux d (m ++ [(ok, sk)]) sn w rest := by
          simp only [padAux, hx, if_pos hseen]
        rw [hL, ih d (m ++ [(ok, sk)]) sn w hsn]
        simp [dedupFrom, hstd, hmem, hx, List.filter_cons]
      · have hmem : sk ∉ d.map Prod.fst := by
          rw [← hsn]
          intro hcontra
          exact hseen ((alookup_isSome_iff sk sn).mpr hcontra)
        have hL : padAux d m sn w ((ok, e) :: rest) =
            padAux (d ++ [(sk, e)]) (m ++ [(ok, sk)]) (sn ++ [(sk, ok)]) w rest := by
          simp only [padAux, hx, if_neg hseen]
        have hsn' : (sn ++ [(sk, ok)]).map Prod.fst = ((d ++ [(sk, e)])).map Prod.fst := by
          simp [hsn]
        rw [hL, ih (d ++ [(sk, e)]) (m ++ [(ok, sk)]) (sn ++ [(sk, ok)]) w hsn']
        simp [dedupFrom, hstd, hmem, hx, List.filter_cons]
    | none =>
      have hstd : stdKey (ok, e) = ok := by simp [stdKey, hx]
      by_cases hseen : (alookup ok sn).isSome
      · have hmem : ok ∈ d.map Prod.fst := by
          rw [← hsn]; exact (alookup_isSome_iff ok sn).mp hseen
        have hL : padAux d m sn w ((ok, e) :: rest) =
            padAux d (m ++ [(ok, ok)]) sn (w ++ [ok]) rest := by
          simp only [padAux, hx, if_pos hseen]
        rw [hL, ih d (m ++ [(ok, ok)]) sn (w ++ [ok]) hsn]
        simp [dedupFrom, hstd, hmem, hx, List.filter_cons]
      · have hmem : ok ∉ d.map Prod.fst := by
          rw [← hsn]
          intro hcontra
          exact hseen ((alookup_isSome_iff ok sn).mpr hcontra)
        have hL : padAux d m sn w ((ok, e) :: rest) =
            padAux (d ++ [(ok, e)]) (m ++ [(ok, ok)]) (sn ++ [(ok, ok)]) (w ++ [ok]) rest := by
          simp only [padAux, hx, if_neg hseen]
        have hsn' : (sn ++ [(ok, ok)]).map Prod.fst = ((d ++ [(ok, e)])).map Prod.fst := by
          simp [hsn]
        rw [hL, ih (d ++ [(ok, e)]) (m ++ [(ok, ok)]) (sn ++ [(ok, ok)]) (w ++ [ok]) hsn']
        simp [dedupFrom, hstd, hmem, hx, List.filter_cons]

theorem process_and_deduplicate_eq (entries : List (List Char × List Char)) :
    process_and_deduplicate entries =
      ⟨dedupFrom [] entries,
       entries.map (fun pr => (pr.1, stdKey pr)),
       (entries.filter (fun pr => (extract_bibtex_key pr.2).isNone)).map Prod.fst⟩ := by
  unfold process_and_deduplicate
  rw [padAux_spec entries [] [] [] [] rfl]
  simp

theorem alookup_dedupFrom (c : List Char) :
    ∀ (l : List (List Char × List Char)) (seen : List (List Char)),
    alookup c (dedupFrom seen l) =
      if c ∈ seen then none else (firstWithStd c l).map Prod.snd := by
  intro l
  induction l with
  | nil =>
    intro seen
    simp [dedupFrom, firstWithStd, alookup]
  | cons pr rest ih =>
    intro seen
    by_cases hsk : stdKey pr ∈ seen
    · rw [dedupFrom, if_pos hsk, ih seen]
      by_cases hc : c ∈ seen
      · simp [hc]
      · have hne : ¬ stdKey pr = c := fun h => hc (h ▸ hsk)
        simp [hc, firstWithStd, hne]
    · rw [dedupFrom, if_neg hsk]
      by_cases heq : stdKey pr = c
      · have hc : c ∉ seen := fun h => hsk (heq ▸ h)
        rw [alookup, if_pos heq, if_neg hc]
        rw [firstWithStd, if_pos heq]
        rfl
      · have hstep : alookup c ((stdKey pr, pr.2) :: dedupFrom (seen ++ [stdKey pr]) rest) =
            alookup c (dedupFrom (seen ++ [stdKey pr]) rest) := by
          rw [alookup, if_neg heq]
        rw [hstep, ih (seen ++ [stdKey pr])]
        by_cases hc : c ∈ seen
        · rw [if_pos (List.mem_append_left _ hc), if_pos hc]
        · have hc2 : c ∉ seen ++ [stdKey pr] := by
            intro hmem
            rcases List.mem_append.mp hmem with h | h
            · exact hc h
            · exact heq (List.mem_singleton.mp h).symm
          rw [if_neg hc2, if_neg hc, firstWithStd, if_neg heq]

theorem dedupFrom_keys :
    ∀ (l : List (List Char × List Char)) (seen : List (List Char)),
    (∀ c ∈ (dedupFrom seen l).map Prod.fst, c ∉ seen) ∧
    ((dedupFrom seen l).map Prod.fst).Nodup := by
  intro l
  induction l with
  | nil => intro seen; simp [dedupFrom]
  | cons pr rest ih =>
    intro seen
    by_cases hsk : stdKey pr ∈ seen
    · rw [dedupFrom, if_pos hsk]; exact ih seen
    · rw [dedupFrom, if_neg hsk]
      rcases ih (seen ++ [stdKey pr]) with ⟨hnotin, hnd⟩
      constructor
      · intro c hc
        rw [List.map_cons] at hc
        rcases List.mem_cons.mp hc with hc' | hc'
        · intro hmem
          apply hsk
          rw [show stdKey pr = c from hc'.symm]
          exact hmem
        · intro hmem
          exact hnotin c hc' (List.mem_append_left _ hmem)
      · simp only [List.map_cons]
        refine List.nodup_cons.mpr ⟨?_, hnd⟩
        intro hmem
        exact hnotin _ hmem (List.mem_append_right _ (List.mem_cons_self _ _))

theorem mem_dedupFrom_keys (c : List Char) :
    ∀ (l : List (List Char × List Char)) (seen : List (List Char)),
    c ∈ (dedupFrom seen l).map Prod.fst ↔ (c ∉ seen ∧ ∃ pr ∈ l, stdKey pr = c) := by
  intro l
  induction l with
  | nil => intro seen; simp [dedupFrom]
  | cons pr rest ih =>
    intro seen
    by_cases hsk : stdKey pr ∈ seen
    · rw [dedupFrom, if_pos hsk, ih seen]
      constructor
      · rintro ⟨hc, pr', hpr', hstd⟩
        exact ⟨hc, pr', List.mem_cons_of_mem _ hpr', hstd⟩
      · rintro ⟨hc, pr', hpr', hstd⟩
        rcases List.mem_cons.mp hpr' with h | h
        · subst h
          exact absurd (hstd ▸ hsk) hc
        · exact ⟨hc, pr', h, hstd⟩
    · rw [dedupFrom, if_neg hsk]
      rw [List.map_cons]
      constructor
      · intro hmem
        rcases List.mem_cons.mp hmem with h | h
        · refine ⟨?_, pr, List.mem_cons_self _ _, (show c = stdKey pr from h).symm⟩
          intro hc
          apply hsk
          rw [show stdKey pr = c from (show c = stdKey pr from h).symm]
          exact hc
        · rcases (ih (seen ++ [stdKey pr])).mp h with ⟨hc, pr', hpr', hstd⟩
          exact ⟨fun hh => hc (List.mem_append_left _ hh),
            pr', List.mem_cons_of_mem _ hpr', hstd⟩
      · rintro ⟨hc, pr', hpr', hstd⟩
        rcases List.mem_cons.mp hpr' with h | h
        · subst h
          exact List.mem_cons.mpr (Or.inl hstd.symm)
        · by_cases hcs : c = stdKey pr
          · exact List.mem_cons.mpr (Or.inl hcs)
          · refine List.mem_cons_of_mem _ ((ih (seen ++ [stdKey pr])).mpr ⟨?_, pr', h, hstd⟩)
            intro hmem
            rcases List.mem_append.mp hmem with h1 | h1
            · exact hc h1
            · exact hcs (List.mem_singleton.mp h1)

theorem filter_key_length_one :
    ∀ (l : List (List Char × List Char)) (c : List Char),
    (l.map Prod.fst).Nodup → c ∈ l.map Prod.fst →
    (l.filter (fun q => q.1 = c)).length = 1 := by
  intro l
  induction l with
  | nil => intro c _ hc; simp at hc
  | cons q r ih =>
    intro c hnd hc
    rw [List.map_cons] at hnd hc
    rcases List.nodup_cons.mp hnd with ⟨hq, hr⟩
    by_cases hqc : q.1 = c
    · have hnone : r.filter (fun x => x.1 = c) = [] := by
        rw [List.filter_eq_nil_iff]
        intro a ha
        simp only [decide_eq_true_eq]
        intro haa
        apply hq
        rw [hqc, ← haa]
        exact List.mem_map.mpr ⟨a, ha, rfl⟩
      rw [List.filter_cons, if_pos (by simp [hqc]), hnone]
      rfl
    · have hcr : c ∈ r.map Prod.fst := by
        rcases List.mem_cons.mp hc with h | h
        · exact absurd h.symm hqc
        · exact h
      rw [List.filter_cons, if_neg (by simp [hqc])]
      exact ih c hr hcr

theorem alookup_map_stdKey :
    ∀ (entries : List (List Char × List Char)) (k v : List Char),
    (entries.map Prod.fst).Nodup → (k, v) ∈ entries →
    alookup k (entries.map (fun pr => (pr.1, stdKey pr))) = some (stdKey (k, v)) := by
  intro entries
  induction entries with
  | nil => intro k v _ hm; simp at hm
  | cons pr rest ih =>
    intro k v hnd hm
    rw [List.map_cons] at hnd
    rcases List.nodup_cons.mp hnd with ⟨hq, hr⟩
    rcases List.mem_cons.mp hm with h | h
    · rw [← h]
      simp [alookup]
    · have hne : ¬ pr.1 = k := by
        intro heq
        apply hq
        rw [heq]
        exact List.mem_map.mpr ⟨(k, v), h, rfl⟩
      rw [List.map_cons, alookup, if_neg hne]
      exact ih k v hr h

/-! ## Claim C1 — deduplication invariant -/

/-- C1: for distinct raw keys `k1 ≠ k2` whose registry records carry the same
embedded canonical key `c`, `process_and_deduplicate` maps both raw keys to
`c` in the key mapping, keeps exactly one record under `c` in the
deduplicated entries, and that record is the one of the first-seen pair that
resolves to `c`. -/

theorem process_and_deduplicate_dedup_invariant
    (entries : List (List Char × List Char))
    (hnd : (entries.map Prod.fst).Nodup)
    (k1 k2 e1 e2 c : List Char)
    (h1 : (k1, e1) ∈ entries) (h2 : (k2, e2) ∈ entries) (_hne : k1 ≠ k2)
    (hc1 : extract_bibtex_key e1 = some c) (hc2 : extract_bibtex_key e2 = some c) :
    alookup k1 (process_and_deduplicate entries).key_mapping = some c ∧
    alookup k2 (process_and_deduplicate entries).key_mapping = some c ∧
    ((process_and_deduplicate entries).deduplicated_entries.filter
      (fun q => q.1 = c)).length = 1 ∧
    alookup c (process_and_deduplicate entries).deduplicated_entries =
      (firstWithStd c entries).map Prod.snd := by
  rw [process_and_deduplicate_eq]
  have hs1 : stdKey (k1, e1) = c := by simp [stdKey, hc1]
  have hs2 : stdKey (k2, e2) = c := by simp [stdKey, hc2]
  refine ⟨?_, ?_, ?_, ?_⟩
  · rw [alookup_map_stdKey entries k1 e1 hnd h1, hs1]
  · rw [alookup_map_stdKey entries k2 e2 hnd h2, hs2]
  · apply filter_key_length_one _ c (dedupFrom_keys entries []).2
    rw [mem_dedupFrom_keys]
    exact ⟨by simp, (k1, e1), h1, hs1⟩
  · rw [alookup_dedupFrom c entries []]
    simp

/-- C1 (witness): two distinct raw keys `x` and `y` whose records both embed
the canonical key `K`. -/

theorem process_and_deduplicate_dedup_invariant_witness :
    ((([(['x'], ['@', 'a', '{', 'K', ',']), (['y'], ['@', 'b', '{', 'K', ','])] :
        List (List Char × List Char)).map Prod.fst).Nodup ∧
      extract_bibtex_key ['@', 'a', '{', 'K', ','] = some ['K'] ∧
      extract_bibtex_key ['@', 'b', '{', 'K', ','] = some ['K']) ∧
    (alookup ['x'] (process_and_deduplicate
        [(['x'], ['@', 'a', '{', 'K', ',']), (['y'], ['@', 'b', '{', 'K', ','])]).key_mapping =
        some ['K'] ∧
      alookup ['y'] (process_and_deduplicate
        [(['x'], ['@', 'a', '{', 'K', ',']), (['y'], ['@', 'b', '{', 'K', ','])]).key_mapping =
        some ['K'] ∧
      ((process_and_deduplicate
        [(['x'], ['@', 'a', '{', 'K', ',']), (['y'], ['@', 'b', '{', 'K', ','])]).deduplicated_entries.filter
          (fun q => q.1 = ['K'])).length = 1 ∧
      alookup ['K'] (process_and_deduplicate
        [(['x'], ['@', 'a', '{', 'K', ',']), (['y'], ['@', 'b', '{', 'K', ','])]).deduplicated_entries =
        (firstWithStd ['K']
          [(['x'], ['@', 'a', '{', 'K', ',']), (['y'], ['@', 'b', '{', 'K', ','])]).map Prod.snd) :=
  ⟨⟨by decide, by decide, by decide⟩,
    process_and_deduplicate_dedup_invariant
      [(['x'], ['@', 'a', '{', 'K', ',']), (['y'], ['@', 'b', '{', 'K', ','])]
      (by decide) ['x'] ['y'] ['@', 'a', '{', 'K', ','] ['@', 'b', '{', 'K', ',']
      ['K'] (by decide) (by decide) (by decide) (by decide) (by decide)⟩

/-! ## Claim C7 — fallback on extraction failure -/

/-- C7: for a pair whose record text yields no canonical key
(`extract_bibtex_key` returns `None`), `process_and_deduplicate` completes
normally: the raw key is mapped to itself in the key mapping, a warning is
surfaced for it, and (when this pair is the first to resolve to that key)
the record is inserted under the raw key itself. -/

theorem process_and_deduplicate_extraction_fallback
    (entries : List (List Char × List Char))
    (hnd : (entries.map Prod.fst).Nodup)
    (k e : List Char) (hm : (k, e) ∈ entries)
    (hx : extract_bibtex_key e = none) :
    alookup k (process_and_deduplicate entries).key_mapping = some k ∧
    k ∈ (process_and_deduplicate entries).warnings ∧
    (firstWithStd k entries = some (k, e) →
      alookup k (process_and_deduplicate entries).deduplicated_entries = some e) := by
  rw [process_and_deduplicate_eq]
  have hs : stdKey (k, e) = k := by simp [stdKey, hx]
  refine ⟨?_, ?_, ?_⟩
  · rw [alookup_map_stdKey entries k e hnd hm, hs]
  · exact List.mem_map.mpr ⟨(k, e),
      List.mem_filter.mpr ⟨hm, by simp [hx]⟩, rfl⟩
  · intro hfirst
    rw [alookup_dedupFrom k entries []]
    simp [hfirst]

/-- C7 (witness): a single pair whose record text `hi` has no extractable
BibTeX key. -/

theorem process_and_deduplicate_extraction_fallback_witness :
    ((([(['z'], ['h', 'i'])] : List (List Char × List Char)).map Prod.fst).Nodup ∧
      extract_bibtex_key ['h', 'i'] = none) ∧
    (alookup ['z'] (process_and_deduplicate [(['z'], ['h', 'i'])]).key_mapping =
        some ['z'] ∧
      ['z'] ∈ (process_and_deduplicate [(['z'], ['h', 'i'])]).warnings ∧
      (firstWithStd ['z'] [(['z'], ['h', 'i'])] = some (['z'], ['h', 'i']) →
        alookup ['z'] (process_and_deduplicate [(['z'], ['h', 'i'])]).deduplicated_entries =
          some ['h', 'i'])) :=
  ⟨⟨by decide, by decide⟩,
    process_and_deduplicate_extraction_fallback [(['z'], ['h', 'i'])]
      (by decide) ['z'] ['h', 'i'] (by decide) (by decide)⟩

/-! ## takeWhile/dropWhile helpers -/

theorem takeWhile_pred {q : Char → Bool} :
    ∀ {l : List Char} {a : Char}, a ∈ l.takeWhile q → q a = true := by
  intro l
  induction l with
  | nil => intro a h; simp [List.takeWhile] at h
  | cons c cs ih =>
    intro a h
    rw [List.takeWhile_cons] at h
    by_cases hc : q c
    · rw [if_pos hc] at h
      rcases List.mem_cons.mp h with h | h
      · exact h ▸ hc
      · exact ih h
    · rw [if_neg hc] at h
      simp at h

theorem dropWhile_all {q : Char → Bool} :
    ∀ {l : List Char}, (∀ a ∈ l, q a = true) → l.dropWhile q = [] := by
  intro l
  induction l with
  | nil => intro _; rfl
  | cons c cs ih =>
    intro h
    rw [List.dropWhile_cons, if_pos (h c (List.mem_cons_self c cs))]
    exact ih fun a ha => h a (List.mem_cons_of_mem c ha)

theorem takeWhile_append_stop {q : Char → Bool} {x : Char} (hx : q x = false) :
    ∀ {p : List Char}, (∀ a ∈ p, q a = true) → ∀ (r : List Char),
    (p ++ x :: r).takeWhile q = p ∧ (p ++ x :: r).dropWhile q = x :: r := by
  intro p
  induction p with
  | nil =>
    intro _ r
    constructor
    · rw [List.nil_append, List.takeWhile_cons, if_neg (by simp [hx])]
    · rw [List.nil_append, List.dropWhile_cons, if_neg (by simp [hx])]
  | cons a p ih =>
    intro hall r
    have ha : q a = true := hall a (List.mem_cons_self a p)
    have htail := ih (fun b hb => hall b (List.mem_cons_of_mem a hb)) r
    constructor
    · rw [List.cons_append, List.takeWhile_cons, if_pos ha, htail.1]
    · rw [List.cons_append, List.dropWhile_cons, if_pos ha, htail.2]

/-! ## matchCite characterization -/

theorem matchCite_some {s p r : List Char} (h : matchCite s = some (p, r)) :
    s = citeHead ++ (p ++ '}' :: r) ∧ p ≠ [] ∧ '}' ∉ p := by
  unfold matchCite at h
  by_cases h6 : s.take 6 = citeHead
  · rw [if_pos h6] at h
    cases hd : (s.drop 6).dropWhile (fun c => c != '}') with
    | nil => rw [hd] at h; exact absurd h (by simp)
    | cons x u =>
      rw [hd] at h
      dsimp only at h
      by_cases hx : x = '}'
      · rw [if_pos hx] at h
        subst hx
        by_cases hemp : ((s.drop 6).takeWhile (fun c => c != '}')).isEmpty
        · rw [if_pos hemp] at h; exact absurd h (by simp)
        · rw [if_neg hemp] at h
          simp only [Option.some.injEq, Prod.mk.injEq] at h
          rcases h with ⟨hp, hr⟩
          have hs : s = citeHead ++ s.drop 6 := by
            conv_lhs => rw [← List.take_append_drop 6 s]
            rw [h6]
          have hsplit : s.drop 6 = p ++ '}' :: r := by
            conv_lhs => rw [← List.takeWhile_append_dropWhile
              (p := fun c => c != '}') (l := s.drop 6)]
            rw [hd, hp, hr]
          refine ⟨by rw [hs, hsplit], ?_, ?_⟩
          · intro hnil
            rw [← hp] at hnil
            rw [hnil] at hemp
            simp at hemp
          · intro hmem
            have := takeWhile_pred (hp ▸ hmem)
            simp at this
      · rw [if_neg hx] at h
        exact absurd h (by simp)
  · rw [if_neg h6] at h
    exact absurd h (by simp)

theorem matchCite_render {p : List Char} (hne : p ≠ []) (hnb : '}' ∉ p) (r : List Char) :
    matchCite (citeHead ++ (p ++ '}' :: r)) = some (p, r) := by
  have h6len : (6 : Nat) = citeHead.length := rfl
  have h6 : (citeHead ++ (p ++ '}' :: r)).take 6 = citeHead := by
    rw [h6len, List.take_left]
  have hdrop : (citeHead ++ (p ++ '}' :: r)).drop 6 = p ++ '}' :: r := by
    rw [h6len, List.drop_left]
  have hall : ∀ a ∈ p, (a != '}') = true := by
    intro a ha
    simp only [bne_iff_ne, ne_eq]
    exact fun hh => hnb (hh ▸ ha)
  have htd := takeWhile_append_stop (q := fun c => c != '}') (x := '}')
    (by simp) hall r
  have hpe : p.isEmpty = false := by
    cases p with
    | nil => exact absurd rfl hne
    | cons a q => rfl
  unfold matchCite
  rw [if_pos h6, hdrop, htd.2]
  dsimp only
  rw [if_pos rfl, htd.1, if_neg (by simp [hpe])]

theorem matchCite_rest_length {s p r : List Char} (h : matchCite s = some (p, r)) :
    r.length < s.length := by
  rcases matchCite_some h with ⟨hs, hne, _⟩
  have hp : 0 < p.length := List.length_pos.mpr hne
  rw [hs]
  simp only [List.length_append, List.length_cons]
  have h6 : citeHead.length = 6 := rfl
  omega

theorem matchCite_nil : matchCite [] = none := by decide

theorem matchCite_not_head {s : List Char} (h : s.take 6 ≠ citeHead) :
    matchCite s = none := by
  unfold matchCite
  rw [if_neg h]

theorem matchCite_ne_bs {c : Char} (hc : c ≠ '\\') (t : List Char) :
    matchCite (c :: t) = none := by
  apply matchCite_not_head
  intro heq
  have h5 : (c :: t).take 6 = c :: t.take 5 := rfl
  rw [h5, show citeHead = '\\' :: ['c', 'i', 't', 'e', '{'] from rfl] at heq
  injection heq with h1 _
  exact hc h1

theorem matchCite_head_rbrace {s : List Char} (h6 : s.take 6 = citeHead)
    {u : List Char} (hd : s.drop 6 = '}' :: u) : matchCite s = none := by
  have hdw : ('}' :: u).dropWhile (fun c => c != '}') = '}' :: u := by
    rw [List.dropWhile_cons, if_neg (by simp)]
  have htw : ('}' :: u).takeWhile (fun c => c != '}') = [] := by
    rw [List.takeWhile_cons, if_neg (by simp)]
  unfold matchCite
  rw [if_pos h6, hd, hdw]
  dsimp only
  rw [if_pos rfl, htw]
  rfl

theorem matchCite_no_rbrace {s : List Char} (h6 : s.take 6 = citeHead)
    (hnb : '}' ∉ s.drop 6) : matchCite s = none := by
  have hdw : (s.drop 6).dropWhile (fun c => c != '}') = [] := by
    apply dropWhile_all
    intro a ha
    simp only [bne_iff_ne, ne_eq]
    exact fun hh => hnb (hh ▸ ha)
  unfold matchCite
  rw [if_pos h6, hdw]

/-! ## parseCites unfolding -/

theorem parseCitesF_congr : ∀ (n : Nat) (s : List Char) (f1 f2 : Nat),
    s.length ≤ n → s.length ≤ f1 → s.length ≤ f2 →
    parseCitesF f1 s = parseCitesF f2 s := by
  intro n
  induction n with
  | zero =>
    intro s f1 f2 hn _ _
    have hs : s = [] := List.length_eq_zero.mp (Nat.le_zero.mp hn)
    subst hs
    cases f1 <;> cases f2 <;> rfl
  | succ n ih =>
    intro s f1 f2 hn h1 h2
    cases s with
    | nil => cases f1 <;> cases f2 <;> rfl
    | cons c cs =>
      have hl : (c :: cs).length = cs.length + 1 := rfl
      rw [hl] at hn h1 h2
      cases f1 with
      | zero => exact absurd h1 (by omega)
      | succ g1 =>
        cases f2 with
        | zero => exact absurd h2 (by omega)
        | succ g2 =>
          cases hm : matchCite (c :: cs) with
          | some pr =>
            rcases pr with ⟨p, rest⟩
            have hrest : rest.length < cs.length + 1 := by
              have := matchCite_rest_length hm
              rw [hl] at this
              exact this
            have e1 : parseCitesF (g1 + 1) (c :: cs) =
                Seg.cite p :: parseCitesF g1 rest := by
              simp only [parseCitesF]
              rw [hm]
            have e2 : parseCitesF (g2 + 1) (c :: cs) =
                Seg.cite p :: parseCitesF g2 rest := by
              simp only [parseCitesF]
              rw [hm]
            rw [e1, e2, ih rest g1 g2 (by omega) (by omega) (by omega)]
          | none =>
            have e1 : parseCitesF (g1 + 1) (c :: cs) =
                Seg.chr c :: parseCitesF g1 cs := by
              simp only [parseCitesF]
              rw [hm]
            have e2 : parseCitesF (g2 + 1) (c :: cs) =
                Seg.chr c :: parseCitesF g2 cs := by
              simp only [parseCitesF]
              rw [hm]
            rw [e1, e2, ih cs g1 g2 (by omega) (by omega) (by omega)]

theorem parseCitesF_eq_parseCites {s : List Char} {f : Nat} (h : s.length ≤ f) :
    parseCitesF f s = parseCites s :=
  parseCitesF_congr f s f s.length h h le_rfl

theorem parseCites_pos {s p rest : List Char} (h : matchCite s = some (p, rest)) :
    parseCites s = Seg.cite p :: parseCites rest := by
  cases s with
  | nil => rw [matchCite_nil] at h; exact absurd h (by simp)
  | cons c cs =>
    have hrest : rest.length < cs.length + 1 := matchCite_rest_length h
    show parseCitesF (c :: cs).length (c :: cs) = _
    have hl : (c :: cs).length = cs.length + 1 := rfl
    rw [hl]
    simp only [parseCitesF]
    rw [h]
    dsimp only
    congr 1
    apply parseCitesF_eq_parseCites
    omega

theorem parseCites_neg {c : Char} {cs : List Char} (h : matchCite (c :: cs) = none) :
    parseCites (c :: cs) = Seg.chr c :: parseCites cs := by
  show parseCitesF (c :: cs).length (c :: cs) = _
  have hl : (c :: cs).length = cs.length + 1 := rfl
  rw [hl]
  simp only [parseCitesF]
  rw [h]
  dsimp only
  rfl

/-! ## Claim C6 — frame property of the rewriter -/

theorem parse_unparse_aux : ∀ (n : Nat) (s : List Char), s.length ≤ n →
    (parseCites s).flatMap segText = s := by
  intro n
  induction n with
  | zero =>
    intro s hn
    have hs : s = [] := List.length_eq_zero.mp (Nat.le_zero.mp hn)
    subst hs
    rfl
  | succ n ih =>
    intro s hn
    cases s with
    | nil => rfl
    | cons c cs =>
      cases hm : matchCite (c :: cs) with
      | some pr =>
        rcases pr with ⟨p, rest⟩
        rcases matchCite_some hm with ⟨hs, _, _⟩
        have hrest : rest.length < cs.length + 1 := matchCite_rest_length hm
        have hn' : (c :: cs).length = cs.length + 1 := rfl
        rw [hn'] at hn
        rw [parseCites_pos hm, List.flatMap_cons, ih rest (by omega), hs]
        simp [segText, List.append_assoc]
      | none =>
        have hn' : (c :: cs).length = cs.length + 1 := rfl
        rw [hn'] at hn
        rw [parseCites_neg hm, List.flatMap_cons, ih cs (by omega)]
        rfl

theorem parse_unparse (s : List Char) : (parseCites s).flatMap segText = s :=
  parse_unparse_aux s.length s le_rfl

/-- C6: the rewriter leaves every byte outside citation markers unchanged
(including comment lines — the rewriter does not strip comments) and only
transforms marker payloads: the document decomposes into single characters
outside markers plus markers, this decomposition reproduces the document
exactly, and the output of `create_standardized_latex` is the same
decomposition re-rendered with only each marker payload replaced. -/

theorem create_standardized_latex_frame (R : List (List Char × List Char))
    (D : List Char) :
    D = (parseCites D).flatMap segText ∧
    (create_standardized_latex R D).1 = (parseCites D).flatMap
      (fun seg => match seg with
        | Seg.chr c => [c]
        | Seg.cite p => citeHead ++ (replace_cite_keys R p).1 ++ ['}']) :=
  ⟨(parse_unparse D).symm, rfl⟩

/-! ## Claim C9 — bibliography hint ignores comments -/

theorem matchBib_ne_bs {c : Char} (hc : c ≠ '\\') (t : List Char) :
    matchBib (c :: t) = none := by
  have hne : (c :: t).take 14 ≠ bibHead := by
    intro heq
    have h13 : (c :: t).take 14 = c :: t.take 13 := rfl
    rw [h13, show bibHead =
      '\\' :: ['b', 'i', 'b', 'l', 'i', 'o', 'g', 'r', 'a', 'p', 'h', 'y', '{']
      from rfl] at heq
    injection heq with h1 _
    exact hc h1
  unfold matchBib
  rw [if_neg hne]

theorem matchBib_render {name : List Char} (hne : name ≠ []) (hnb : '}' ∉ name)
    (rest : List Char) :
    matchBib (bibHead ++ (name ++ '}' :: rest)) = some name := by
  have h14 : (14 : Nat) = bibHead.length := rfl
  have hT : (bibHead ++ (name ++ '}' :: rest)).take 14 = bibHead := by
    rw [h14, List.take_left]
  have hD : (bibHead ++ (name ++ '}' :: rest)).drop 14 = name ++ '}' :: rest := by
    rw [h14, List.drop_left]
  have hall : ∀ a ∈ name, (a != '}') = true := by
    intro a ha
    simp only [bne_iff_ne, ne_eq]
    exact fun hh => hnb (hh ▸ ha)
  have htd := takeWhile_append_stop (q := fun c => c != '}') (x := '}')
    (by simp) hall rest
  have hpe : name.isEmpty = false := by
    cases name with
    | nil => exact absurd rfl hne
    | cons a q => rfl
  unfold matchBib
  rw [if_pos hT, hD, htd.2]
  dsimp only
  rw [if_pos rfl, htd.1, if_neg (by simp [hpe])]

theorem searchBib_first : ∀ (i : Nat) (D p : List Char),
    matchBib (D.drop i) = some p → (∀ j < i, matchBib (D.drop j) = none) →
    searchBib D = some p := by
  intro i
  induction i with
  | zero =>
    intro D p h1 _
    cases D with
    | nil =>
      rw [show (([] : List Char).drop 0) = [] from rfl] at h1
      rw [show matchBib ([] : List Char) = none from rfl] at h1
      exact absurd h1 (by simp)
    | cons c cs =>
      rw [show ((c :: cs).drop 0) = c :: cs from rfl] at h1
      simp only [searchBib]
      rw [h1]
  | succ i' ih =>
    intro D p h1 h2
    cases D with
    | nil =>
      rw [show (([] : List Char).drop (i' + 1)) = [] from rfl] at h1
      rw [show matchBib ([] : List Char) = none from rfl] at h1
      exact absurd h1 (by simp)
    | cons c cs =>
      have h0 : matchBib (c :: cs) = none := by
        have hh := h2 0 (by omega)
        rwa [show ((c :: cs).drop 0) = c :: cs from rfl] at hh
      have hstep : searchBib (c :: cs) = searchBib cs := by
        simp only [searchBib]
        rw [h0]
      rw [hstep]
      apply ih cs p
      · rw [show cs.drop i' = (c :: cs).drop (i' + 1) from rfl]
        exact h1
      · intro j hj
        rw [show cs.drop j = (c :: cs).drop (j + 1) from rfl]
        exact h2 (j + 1) (by omega)

/-- C9: the bibliography hint is computed on the raw document text, with no
comment stripping.  First conjunct, for every document: if the bibliography
pattern matches at position `i` with payload `p` and at no earlier position,
then `extract_bibliography_name` returns `p` trimmed — the leftmost raw-text
occurrence wins no matter whether it is commented out.  Second conjunct, the
claim's comment scenario in general: for every commented-out name (nonempty,
brace-free, newline-free, so the whole occurrence sits inside the comment
opened by the leading `%`) and every continuation `rest` — which may contain
arbitrarily many later uncommented `\bibliography{...}` declarations — the
commented-out name is returned, trimmed. -/
theorem extract_bibliography_name_ignores_comments :
    (∀ (D : List Char) (i : Nat) (p : List Char),
      matchBib (D.drop i) = some p →
      (∀ j < i, matchBib (D.drop j) = none) →
      extract_bibliography_name D = some (pyStrip p)) ∧
    (∀ (name rest : List Char), name ≠ [] → '}' ∉ name → '\n' ∉ name →
      extract_bibliography_name ('%' :: (bibHead ++ (name ++ '}' :: rest))) =
        some (pyStrip name)) := by
  constructor
  · intro D i p h1 h2
    unfold extract_bibliography_name
    rw [searchBib_first i D p h1 h2]
    rfl
  · intro name rest hne hnb _
    unfold extract_bibliography_name
    have hfirst : searchBib ('%' :: (bibHead ++ (name ++ '}' :: rest))) =
        some name := by
      apply searchBib_first 1
      · rw [show (('%' :: (bibHead ++ (name ++ '}' :: rest))).drop 1) =
          bibHead ++ (name ++ '}' :: rest) from rfl]
        exact matchBib_render hne hnb rest
      · intro j hj
        have hj0 : j = 0 := by omega
        subst hj0
        rw [show (('%' :: (bibHead ++ (name ++ '}' :: rest))).drop 0) =
          '%' :: (bibHead ++ (name ++ '}' :: rest)) from rfl]
        exact matchBib_ne_bs (by decide) _
    rw [hfirst]
    rfl

/-- C9 (witness): concrete document `%\bibliography{ n1 }` + newline +
`\bibliography{n2}`: the commented occurrence at position 1 is the first
match, and the hint is the commented name trimmed, not the later uncommented
`n2`. -/
theorem extract_bibliography_name_ignores_comments_witness :
    (matchBib (('%' :: (bibHead ++ ([' ', 'n', '1', ' '] ++ '}' ::
        ('\n' :: (bibHead ++ (['n', '2'] ++ '}' :: [])))))).drop 1) =
        some [' ', 'n', '1', ' '] ∧
      (∀ j < 1, matchBib (('%' :: (bibHead ++ ([' ', 'n', '1', ' '] ++ '}' ::
        ('\n' :: (bibHead ++ (['n', '2'] ++ '}' :: [])))))).drop j) = none) ∧
      extract_bibliography_name ('%' :: (bibHead ++ ([' ', 'n', '1', ' '] ++ '}' ::
        ('\n' :: (bibHead ++ (['n', '2'] ++ '}' :: []))))))
        = some (pyStrip [' ', 'n', '1', ' '])) ∧
    ((([' ', 'n', '1', ' '] : List Char) ≠ [] ∧
        '}' ∉ ([' ', 'n', '1', ' '] : List Char) ∧
        '\n' ∉ ([' ', 'n', '1', ' '] : List Char)) ∧
      extract_bibliography_name ('%' :: (bibHead ++ ([' ', 'n', '1', ' '] ++ '}' ::
        ('\n' :: (bibHead ++ (['n', '2'] ++ '}' :: []))))))
        = some (pyStrip [' ', 'n', '1', ' '])) :=
  ⟨⟨by decide, by decide,
    extract_bibliography_name_ignores_comments.1
      ('%' :: (bibHead ++ ([' ', 'n', '1', ' '] ++ '}' ::
        ('\n' :: (bibHead ++ (['n', '2'] ++ '}' :: []))))))
      1 [' ', 'n', '1', ' '] (by decide) (by decide)⟩,
   ⟨⟨by decide, by decide, by decide⟩,
    extract_bibliography_name_ignores_comments.2
      [' ', 'n', '1', ' '] ('\n' :: (bibHead ++ (['n', '2'] ++ '}' :: [])))
      (by decide) (by decide) (by decide)⟩⟩

/-! ## Claim C5 — comment stripping in the extractor -/

theorem unescPct_shift (esc : Bool) (c : Char) (cs : List Char) (j : Nat) :
    UnescPct esc (c :: cs) (j + 1) ↔ UnescPct (decide (c = '\\')) cs j := by
  unfold UnescPct
  cases j with
  | zero =>
    simp only [List.get?_cons_succ, Nat.add_sub_cancel, if_neg (by omega : ¬ 0 + 1 = 0),
      if_pos rfl, List.get?_cons_zero]
    constructor
    · rintro ⟨h1, h2⟩
      refine ⟨h1, ?_⟩
      simp only [decide_eq_false_iff_not]
      exact fun hc => h2 (by rw [hc])
    · rintro ⟨h1, h2⟩
      refine ⟨h1, ?_⟩
      simp only [decide_eq_false_iff_not] at h2
      intro hc
      exact h2 (by injection hc)
  | succ j' =>
    simp only [List.get?_cons_succ, Nat.add_sub_cancel,
      if_neg (by omega : ¬ j' + 1 + 1 = 0), if_neg (by omega : ¬ j' + 1 = 0)]

theorem unescPct_zero (esc : Bool) (c : Char) (cs : List Char) :
    UnescPct esc (c :: cs) 0 ↔ (c = '%' ∧ esc = false) := by
  unfold UnescPct
  rw [if_pos rfl]
  simp only [List.get?_cons_zero, Option.some.injEq]

theorem stripLineAux_spec : ∀ (l : List Char) (esc : Bool),
    (stripLineAux esc l = l ∧ ∀ j, ¬ UnescPct esc l j) ∨
    (∃ i, stripLineAux esc l = l.take i ∧ UnescPct esc l i ∧
      ∀ j < i, ¬ UnescPct esc l j) := by
  intro l
  induction l with
  | nil =>
    intro esc
    left
    refine ⟨rfl, ?_⟩
    intro j hU
    rcases hU with ⟨h1, _⟩
    simp at h1
  | cons c cs ih =>
    intro esc
    by_cases hcond : (decide (c = '%') && !esc) = true
    · right
      have hc : c = '%' ∧ esc = false := by
        simpa [Bool.and_eq_true, Bool.not_eq_true'] using hcond
      refine ⟨0, ?_, ?_, ?_⟩
      · simp only [stripLineAux, if_pos hcond, List.take_zero]
      · exact (unescPct_zero esc c cs).mpr hc
      · intro j hj
        omega
    · have hstep : stripLineAux esc (c :: cs) = c :: stripLineAux (decide (c = '\\')) cs := by
        simp only [stripLineAux, if_neg hcond]
      have hnot0 : ¬ UnescPct esc (c :: cs) 0 := by
        rw [unescPct_zero]
        intro hc
        exact hcond (by simp [hc.1, hc.2])
      rcases ih (decide (c = '\\')) with ⟨heq, hnone⟩ | ⟨i, heq, hU, hmin⟩
      · left
        refine ⟨by rw [hstep, heq], ?_⟩
        intro j
        cases j with
        | zero => exact hnot0
        | succ j' =>
          rw [unescPct_shift]
          exact hnone j'
      · right
        refine ⟨i + 1, ?_, ?_, ?_⟩
        · rw [hstep, heq]
          rfl
        · rw [unescPct_shift]
          exact hU
        · intro j hj
          cases j with
          | zero => exact hnot0
          | succ j' =>
            rw [unescPct_shift]
            exact hmin j' (by omega)

/-- C5: the extractor strips comments before scanning.  First conjunct: a key
is extracted from `D` exactly when the marker scan of the comment-stripped
text (every line truncated by `stripLine`) yields it.  Second conjunct: for
every line of `D`, `stripLine` either keeps the line unchanged — in which
case every `%` in it is escaped (non-initial and preceded by `\`) — or
truncates it exactly at the first unescaped `%` (at position 0 or not
preceded by `\`), removing the span from that `%` to the end of the line;
every earlier `%` is escaped. -/

theorem extract_citations_strips_comments (D : List Char) :
    (∀ k, k ∈ extract_citations D ↔
      k ∈ rawCiteKeys (joinSep '\n' ((pySplit '\n' D).map stripLine))) ∧
    (∀ line ∈ pySplit '\n' D,
      (stripLine line = line ∧
        ∀ j, line.get? j = some '%' → j ≠ 0 ∧ line.get? (j - 1) = some '\\') ∨
      (∃ i, stripLine line = line.take i ∧ line.get? i = some '%' ∧
        (i = 0 ∨ line.get? (i - 1) ≠ some '\\') ∧
        ∀ j < i, line.get? j = some '%' → j ≠ 0 ∧ line.get? (j - 1) = some '\\')) := by
  constructor
  · intro k
    exact List.mem_dedup
  · intro line _
    have hspec := stripLineAux_spec line false
    rcases hspec with ⟨heq, hnone⟩ | ⟨i, heq, hU, hmin⟩
    · left
      refine ⟨heq, ?_⟩
      intro j hj
      have hn := hnone j
      unfold UnescPct at hn
      by_cases hj0 : j = 0
      · rw [if_pos hj0] at hn
        exact absurd ⟨hj, rfl⟩ hn
      · rw [if_neg hj0] at hn
        rcases not_and_or.mp hn with h | h
        · exact absurd hj h
        · exact ⟨hj0, not_not.mp h⟩
    · right
      refine ⟨i, heq, ?_, ?_, ?_⟩
      · exact hU.1
      · unfold UnescPct at hU
        rcases hU with ⟨_, h2⟩
        by_cases hi0 : i = 0
        · exact Or.inl hi0
        · rw [if_neg hi0] at h2
          exact Or.inr h2
      · intro j hj hjp
        have hn := hmin j hj
        unfold UnescPct at hn
        by_cases hj0 : j = 0
        · rw [if_pos hj0] at hn
          exact absurd ⟨hjp, rfl⟩ hn
        · rw [if_neg hj0] at hn
          rcases not_and_or.mp hn with h | h
          · exact absurd hjp h
          · exact ⟨hj0, not_not.mp h⟩

/-- C5 (witness): the characterization applied to the document
`\cite{a}%x`: extraction membership coincides with the comment-stripped
scan, and the single line is truncated at its unescaped `%`. -/
theorem extract_citations_strips_comments_witness :
    ((['a'] ∈ extract_citations ['\\', 'c', 'i', 't', 'e', '{', 'a', '}', '%', 'x'] ↔
      ['a'] ∈ rawCiteKeys (joinSep '\n'
        ((pySplit '\n' ['\\', 'c', 'i', 't', 'e', '{', 'a', '}', '%', 'x']).map
          stripLine)))) ∧
    ((stripLine ['\\', 'c', 'i', 't', 'e', '{', 'a', '}', '%', 'x'] =
        ['\\', 'c', 'i', 't', 'e', '{', 'a', '}', '%', 'x'] ∧
      ∀ j, (['\\', 'c', 'i', 't', 'e', '{', 'a', '}', '%', 'x'] : List Char).get? j =
          some '%' →
        j ≠ 0 ∧ (['\\', 'c', 'i', 't', 'e', '{', 'a', '}', '%', 'x'] : List Char).get?
          (j - 1) = some '\\') ∨
    (∃ i, stripLine ['\\', 'c', 'i', 't', 'e', '{', 'a', '}', '%', 'x'] =
        (['\\', 'c', 'i', 't', 'e', '{', 'a', '}', '%', 'x'] : List Char).take i ∧
      (['\\', 'c', 'i', 't', 'e', '{', 'a', '}', '%', 'x'] : List Char).get? i =
        some '%' ∧
      (i = 0 ∨ (['\\', 'c', 'i', 't', 'e', '{', 'a', '}', '%', 'x'] : List Char).get?
        (i - 1) ≠ some '\\') ∧
      ∀ j < i, (['\\', 'c', 'i', 't', 'e', '{', 'a', '}', '%', 'x'] : List Char).get? j =
          some '%' →
        j ≠ 0 ∧ (['\\', 'c', 'i', 't', 'e', '{', 'a', '}', '%', 'x'] : List Char).get?
          (j - 1) = some '\\')) :=
  ⟨(extract_citations_strips_comments
      ['\\', 'c', 'i', 't', 'e', '{', 'a', '}', '%', 'x']).1 ['a'],
    (extract_citations_strips_comments
      ['\\', 'c', 'i', 't', 'e', '{', 'a', '}', '%', 'x']).2
      ['\\', 'c', 'i', 't', 'e', '{', 'a', '}', '%', 'x'] (by decide)⟩

/-! ## Rendering the rewriter output, and re-parsing it -/

theorem payload_wf : ∀ (n : Nat) (s : List Char), s.length ≤ n →
    ∀ p, Seg.cite p ∈ parseCites s → p ≠ [] ∧ '}' ∉ p := by
  intro n
  induction n with
  | zero =>
    intro s hn p hp
    have hs : s = [] := List.length_eq_zero.mp (Nat.le_zero.mp hn)
    subst hs
    simp [parseCites, parseCitesF] at hp
  | succ n ih =>
    intro s hn p hp
    cases s with
    | nil => simp [parseCites, parseCitesF] at hp
    | cons c cs =>
      have hl : (c :: cs).length = cs.length + 1 := rfl
      rw [hl] at hn
      cases hm : matchCite (c :: cs) with
      | some pr =>
        rcases pr with ⟨q, rest⟩
        rcases matchCite_some hm with ⟨_, hqne, hqnb⟩
        have hrest : rest.length < cs.length + 1 := matchCite_rest_length hm
        rw [parseCites_pos hm] at hp
        rcases List.mem_cons.mp hp with h | h
        · injection h with h'
          exact h' ▸ ⟨hqne, hqnb⟩
        · exact ih rest (by omega) p h
      | none =>
        rw [parseCites_neg hm] at hp
        rcases List.mem_cons.mp hp with h | h
        · exact absurd h (by simp)
        · exact ih cs (by omega) p h

theorem parseCites_no_rbrace : ∀ (s : List Char), '}' ∉ s →
    parseCites s = s.map Seg.chr := by
  intro s
  induction s with
  | nil => intro _; rfl
  | cons c cs ih =>
    intro hnb
    have hm : matchCite (c :: cs) = none := by
      cases hm : matchCite (c :: cs) with
      | none => rfl
      | some pr =>
        rcases pr with ⟨p, r⟩
        rcases matchCite_some hm with ⟨hs, _, _⟩
        exfalso
        apply hnb
        rw [hs]
        refine List.mem_append_right _ ?_
        exact List.mem_append_right _ (List.mem_cons_self _ _)
    rw [parseCites_neg hm, List.map_cons, ih (fun h => hnb (List.mem_cons_of_mem c h))]

theorem renderOut_map_chr (f : List Char → List Char) :
    ∀ (s : List Char), (s.map Seg.chr).flatMap (renderSegF f) = s := by
  intro s
  induction s with
  | nil => rfl
  | cons c cs ih =>
    rw [List.map_cons, List.flatMap_cons, ih]
    rfl

theorem renderOut_no_rbrace (f : List Char → List Char) {s : List Char}
    (hnb : '}' ∉ s) : renderOut f s = s := by
  unfold renderOut
  rw [parseCites_no_rbrace s hnb, renderOut_map_chr]

theorem take_citeHead_append (n : Nat) (hn : n ≤ 6) (X : List Char) :
    (citeHead ++ X).take n = citeHead.take n := by
  rw [List.take_append_eq_append_take]
  have hz : n - citeHead.length = 0 := by
    have h6 : citeHead.length = 6 := rfl
    omega
  rw [hz]
  simp

theorem renderOut_take6 (f : List Char → List Char) :
    ∀ (N : Nat) (s : List Char), s.length ≤ N → ∀ n, n ≤ 6 →
    (renderOut f s).take n = s.take n := by
  intro N
  induction N with
  | zero =>
    intro s hN n _
    have hs : s = [] := List.length_eq_zero.mp (Nat.le_zero.mp hN)
    subst hs
    rfl
  | succ N ih =>
    intro s hN n hn
    cases s with
    | nil => rfl
    | cons c cs =>
      have hl : (c :: cs).length = cs.length + 1 := rfl
      rw [hl] at hN
      cases hm : matchCite (c :: cs) with
      | some pr =>
        rcases pr with ⟨p, r⟩
        rcases matchCite_some hm with ⟨hs, _, _⟩
        have hr : r.length < cs.length + 1 := matchCite_rest_length hm
        unfold renderOut
        rw [parseCites_pos hm, List.flatMap_cons]
        have hshape : renderSegF f (Seg.cite p) ++ (parseCites r).flatMap (renderSegF f) =
            citeHead ++ (f p ++ ['}'] ++ (parseCites r).flatMap (renderSegF f)) := by
          show citeHead ++ f p ++ ['}'] ++ _ = _
          simp [List.append_assoc]
        rw [hshape, hs, take_citeHead_append n hn, take_citeHead_append n hn]
      | none =>
        unfold renderOut
        rw [parseCites_neg hm, List.flatMap_cons]
        show ([c] ++ (parseCites cs).flatMap (renderSegF f)).take n = (c :: cs).take n
        cases n with
        | zero => rfl
        | succ m =>
          have e1 : ([c] ++ (parseCites cs).flatMap (renderSegF f)).take (m + 1) =
              c :: ((parseCites cs).flatMap (renderSegF f)).take m := rfl
          have e2 : (c :: cs).take (m + 1) = c :: cs.take m := rfl
          rw [e1, e2]
          have := ih cs (by omega) m (by omega)
          unfold renderOut at this
          rw [this]

theorem mem_rbrace_dropWhile {u : List Char} (h : '}' ∈ u) :
    ∃ b, u.dropWhile (fun c => c != '}') = '}' :: b := by
  cases hd : u.dropWhile (fun c => c != '}') with
  | nil =>
    exfalso
    have hall : ∀ a ∈ u, (a != '}') = true := by
      intro a ha
      have htw : u.takeWhile (fun c => c != '}') = u := by
        have happ := List.takeWhile_append_dropWhile (p := fun c => c != '}') (l := u)
        rw [hd, List.append_nil] at happ
        exact happ
      exact takeWhile_pred (q := fun c => c != '}') (htw ▸ ha)
    have hbad := hall '}' h
    simp at hbad
  | cons x b =>
    have hx : (x != '}') = false :=
      dropWhile_head?_false (p := fun c => c != '}') (l := u) (a := x)
        (by rw [hd]; rfl)
    have hxe : x = '}' := by simpa using hx
    refine ⟨b, ?_⟩
    rw [hxe]

theorem matchCite_none_takeWhile {s : List Char} (h : matchCite s = none)
    (h6 : s.take 6 = citeHead) {b : List Char}
    (hd : (s.drop 6).dropWhile (fun c => c != '}') = '}' :: b) :
    (s.drop 6).takeWhile (fun c => c != '}') = [] := by
  unfold matchCite at h
  rw [if_pos h6, hd] at h
  dsimp only at h
  rw [if_pos rfl] at h
  by_cases hemp : ((s.drop 6).takeWhile (fun c => c != '}')).isEmpty
  · exact List.isEmpty_iff.mp hemp
  · rw [if_neg hemp] at h
    exact absurd h (by simp)

theorem takeWhile_nil_head {q : Char → Bool} {x : Char} {u : List Char}
    (h : (x :: u).takeWhile q = []) : q x = false := by
  rw [List.takeWhile_cons] at h
  by_cases hx : q x
  · rw [if_pos hx] at h
    exact absurd h (by simp)
  · exact Bool.eq_false_iff.mpr hx

theorem parseCites_cite_empty (w : List Char) :
    parseCites ('\\' :: 'c' :: 'i' :: 't' :: 'e' :: '{' :: '}' :: w) =
      [Seg.chr '\\', Seg.chr 'c', Seg.chr 'i', Seg.chr 't', Seg.chr 'e',
       Seg.chr '{', Seg.chr '}'] ++ parseCites w := by
  have h0 : matchCite ('\\' :: 'c' :: 'i' :: 't' :: 'e' :: '{' :: '}' :: w) = none := by
    apply matchCite_head_rbrace (u := w) <;> rfl
  rw [parseCites_neg h0]
  rw [parseCites_neg (matchCite_ne_bs (by decide) _)]
  rw [parseCites_neg (matchCite_ne_bs (by decide) _)]
  rw [parseCites_neg (matchCite_ne_bs (by decide) _)]
  rw [parseCites_neg (matchCite_ne_bs (by decide) _)]
  rw [parseCites_neg (matchCite_ne_bs (by decide) _)]
  rw [parseCites_neg (matchCite_ne_bs (by decide) _)]
  rfl

theorem renderOut_cite_tail (f : List Char → List Char) (u' : List Char) :
    renderOut f ('c' :: 'i' :: 't' :: 'e' :: '{' :: '}' :: u') =
      'c' :: 'i' :: 't' :: 'e' :: '{' :: '}' :: renderOut f u' := by
  unfold renderOut
  rw [parseCites_neg (matchCite_ne_bs (by decide) _),
      parseCites_neg (matchCite_ne_bs (by decide) _),
      parseCites_neg (matchCite_ne_bs (by decide) _),
      parseCites_neg (matchCite_ne_bs (by decide) _),
      parseCites_neg (matchCite_ne_bs (by decide) _),
      parseCites_neg (matchCite_ne_bs (by decide) _)]
  simp [renderSegF]

theorem parse_renderOut (f : List Char → List Char)
    (hf : ∀ p, p ≠ [] → '}' ∉ p → '}' ∉ f p) :
    ∀ (N : Nat) (s : List Char), s.length ≤ N →
    parseCites (renderOut f s) = (parseCites s).flatMap (expandSeg f) := by
  intro N
  induction N with
  | zero =>
    intro s hN
    have hs : s = [] := List.length_eq_zero.mp (Nat.le_zero.mp hN)
    subst hs
    rfl
  | succ N ih =>
    intro s hN
    cases s with
    | nil => rfl
    | cons c cs =>
      have hl : (c :: cs).length = cs.length + 1 := rfl
      rw [hl] at hN
      cases hm : matchCite (c :: cs) with
      | some pr =>
        rcases pr with ⟨p, r⟩
        rcases matchCite_some hm with ⟨hs, hpne, hpnb⟩
        have hr : r.length < cs.length + 1 := matchCite_rest_length hm
        have hout : renderOut f (c :: cs) =
            citeHead ++ (f p ++ '}' :: renderOut f r) := by
          unfold renderOut
          rw [parseCites_pos hm, List.flatMap_cons]
          show citeHead ++ f p ++ ['}'] ++ _ = _
          simp [List.append_assoc]
        rw [hout, parseCites_pos hm, List.flatMap_cons]
        by_cases hfp : f p = []
        · rw [hfp]
          have hform : citeHead ++ (([] : List Char) ++ '}' :: renderOut f r) =
              '\\' :: 'c' :: 'i' :: 't' :: 'e' :: '{' :: '}' :: renderOut f r := rfl
          rw [hform, parseCites_cite_empty, ih r (by omega)]
          have hexp : expandSeg f (Seg.cite p) =
              [Seg.chr '\\', Seg.chr 'c', Seg.chr 'i', Seg.chr 't', Seg.chr 'e',
               Seg.chr '{', Seg.chr '}'] := by
            simp only [expandSeg]
            rw [if_pos hfp]
          rw [hexp]
        · have hfnb : '}' ∉ f p := hf p hpne hpnb
          rw [parseCites_pos (matchCite_render hfp hfnb (renderOut f r))]
          rw [ih r (by omega)]
          have hexp : expandSeg f (Seg.cite p) = [Seg.cite (f p)] := by
            simp only [expandSeg]
            rw [if_neg hfp]
          rw [hexp]
          rfl
      | none =>
        have hout : renderOut f (c :: cs) = c :: renderOut f cs := by
          unfold renderOut
          rw [parseCites_neg hm, List.flatMap_cons]
          rfl
        have hnone : matchCite (c :: renderOut f cs) = none := by
          by_cases hc : c = '\\'
          · subst hc
            by_cases h6 : ('\\' :: cs).take 6 = citeHead
            · have e2 : ('\\' :: cs).take 6 = '\\' :: cs.take 5 := rfl
              rw [e2, show citeHead = '\\' :: ['c', 'i', 't', 'e', '{'] from rfl] at h6
              injection h6 with _ h5
              have hcs : cs = 'c' :: 'i' :: 't' :: 'e' :: '{' :: cs.drop 5 := by
                conv_lhs => rw [← List.take_append_drop 5 cs]
                rw [h5]
                rfl
              by_cases hub : '}' ∈ cs.drop 5
              · rcases mem_rbrace_dropWhile hub with ⟨b, hdw⟩
                have h6' : ('\\' :: cs).take 6 = citeHead := by
                  rw [e2, h5]
                  rfl
                have hd6 : ('\\' :: cs).drop 6 = cs.drop 5 := rfl
                have htw := matchCite_none_takeWhile hm h6' (by rw [hd6]; exact hdw)
                rw [hd6] at htw
                cases hucase : cs.drop 5 with
                | nil => rw [hucase] at hub; simp at hub
                | cons y u' =>
                  have hy : (y != '}') = false :=
                    takeWhile_nil_head (q := fun c => c != '}') (x := y) (u := u')
                      (by rw [← hucase]; exact htw)
                  have hy' : y = '}' := by simpa using hy
                  have hcs2 : cs = 'c' :: 'i' :: 't' :: 'e' :: '{' :: '}' :: u' := by
                    rw [hcs, hucase, hy']
                  rw [hcs2, renderOut_cite_tail]
                  exact matchCite_head_rbrace (by rfl) (u := renderOut f u') (by rfl)
              · have hnbcs : '}' ∉ cs := by
                  intro hmem
                  rw [hcs] at hmem
                  simp only [List.mem_cons] at hmem
                  rcases hmem with h | h | h | h | h | h
                  · exact absurd h (by decide)
                  · exact absurd h (by decide)
                  · exact absurd h (by decide)
                  · exact absurd h (by decide)
                  · exact absurd h (by decide)
                  · exact hub h
                rw [renderOut_no_rbrace f hnbcs]
                exact hm
            · apply matchCite_not_head
              have e1 : ('\\' :: renderOut f cs).take 6 =
                  '\\' :: (renderOut f cs).take 5 := rfl
              have e2 : ('\\' :: cs).take 6 = '\\' :: cs.take 5 := rfl
              rw [e1, renderOut_take6 f cs.length cs le_rfl 5 (by omega), ← e2]
              exact h6
          · exact matchCite_ne_bs hc _
        rw [hout, parseCites_neg hnone, parseCites_neg hm, List.flatMap_cons]
        rw [ih cs (by omega)]
        rfl

/-! ## Claim C2 — idempotence of the rewriter for clean rename maps -/

theorem replace_cite_keys_fst (R : List (List Char × List Char)) (p : List Char) :
    (replace_cite_keys R p).1 = joinSep ',' (newKeys R p) := rfl

theorem alookup_mem {R : List (List Char × List Char)} {k v : List Char}
    (h : alookup k R = some v) : (k, v) ∈ R := by
  induction R with
  | nil => simp [alookup] at h
  | cons pr rest ih =>
    rcases pr with ⟨k', v'⟩
    simp only [alookup] at h
    by_cases hk : k' = k
    · rw [if_pos hk] at h
      injection h with h'
      subst hk
      subst h'
      exact List.mem_cons_self _ _
    · rw [if_neg hk] at h
      exact List.mem_cons_of_mem _ (ih h)

theorem payloadKeys_props {q k : List Char} (hk : k ∈ payloadKeys q) :
    k ≠ [] ∧ (',' : Char) ∉ k ∧ pyStrip k = k ∧ ∀ c ∈ k, c ∈ q := by
  unfold payloadKeys at hk
  rcases List.mem_filter.mp hk with ⟨hk', hne⟩
  rcases List.mem_map.mp hk' with ⟨piece, hpiece, hkp⟩
  subst hkp
  refine ⟨?_, ?_, pyStrip_idem piece, ?_⟩
  · intro hnil
    rw [hnil] at hne
    simp at hne
  · intro hcm
    exact not_mem_of_mem_pySplit ',' q piece hpiece (mem_of_mem_pyStrip hcm)
  · intro c hc
    exact mem_of_mem_pySplit ',' q piece hpiece c (mem_of_mem_pyStrip hc)

theorem mem_newKeys {R : List (List Char × List Char)} {p κ : List Char}
    (hκ : κ ∈ newKeys R p) :
    (∃ k ∈ payloadKeys p, alookup k R = some κ) ∨
    (κ ∈ payloadKeys p ∧ alookup κ R = none) := by
  unfold newKeys at hκ
  rw [List.map_map] at hκ
  rcases List.mem_map.mp hκ with ⟨k, hk, hkκ⟩
  simp only [Function.comp] at hkκ
  cases hl : alookup k R with
  | some v =>
    left
    refine ⟨k, hk, ?_⟩
    rw [hl] at hkκ ⊢
    rw [show v = κ from hkκ]
  | none =>
    right
    rw [hl] at hkκ
    have : k = κ := hkκ
    subst this
    exact ⟨hk, hl⟩

theorem mem_newKeys_of_unmapped {R : List (List Char × List Char)}
    {p k : List Char} (hk : k ∈ payloadKeys p) (hun : alookup k R = none) :
    k ∈ newKeys R p := by
  unfold newKeys
  rw [List.map_map]
  refine List.mem_map.mpr ⟨k, hk, ?_⟩
  simp only [Function.comp]
  rw [hun]

theorem subPayload_no_rbrace (R : List (List Char × List Char))
    (hR : ∀ pr ∈ R, ('}' : Char) ∉ pr.2)
    {p : List Char} (hp : '}' ∉ p) : '}' ∉ (replace_cite_keys R p).1 := by
  rw [replace_cite_keys_fst]
  intro hmem
  rcases mem_of_mem_joinSep ',' hmem with h | ⟨κ, hκ, hcm⟩
  · exact absurd h (by decide)
  · rcases mem_newKeys hκ with ⟨k, _, hl⟩ | ⟨hκp, _⟩
    · exact hR (k, κ) (alookup_mem hl) hcm
    · exact hp ((payloadKeys_props hκp).2.2.2 '}' hcm)

theorem newKeys_clean (R : List (List Char × List Char))
    (hR : ∀ pr ∈ R, (',' : Char) ∉ pr.2 ∧ pyStrip pr.2 = pr.2 ∧ alookup pr.2 R = none)
    {p κ : List Char} (hκ : κ ∈ newKeys R p) :
    (',' : Char) ∉ κ ∧ pyStrip κ = κ ∧ alookup κ R = none := by
  rcases mem_newKeys hκ with ⟨k, _, hl⟩ | ⟨hκp, hln⟩
  · exact hR (k, κ) (alookup_mem hl)
  · rcases payloadKeys_props hκp with ⟨_, h1, h2, _⟩
    exact ⟨h1, h2, hln⟩

theorem payloadKeys_joinSep_unmapped (R : List (List Char × List Char))
    {l : List (List Char)} (hlne : l ≠ [])
    (hclean : ∀ κ ∈ l, (',' : Char) ∉ κ ∧ pyStrip κ = κ ∧ alookup κ R = none) :
    ∀ k ∈ payloadKeys (joinSep ',' l), alookup k R = none := by
  intro k hk
  unfold payloadKeys at hk
  rcases List.mem_filter.mp hk with ⟨hk', _⟩
  rcases List.mem_map.mp hk' with ⟨piece, hpiece, hkp⟩
  rw [pySplit_joinSep ',' l hlne] at hpiece
  rcases List.mem_flatMap.mp hpiece with ⟨κ, hκ, hpκ⟩
  rcases hclean κ hκ with ⟨hcm, htrim, hnone⟩
  have hpe : piece = κ := by
    rw [pySplit_of_not_mem ',' κ hcm] at hpκ
    simpa using hpκ
  rw [hpe, htrim] at hkp
  rw [← hkp]
  exact hnone

theorem sum_map_flatMap (g : Seg → List Seg) (h : Seg → Nat) :
    ∀ (l : List Seg),
    ((l.flatMap g).map h).sum = (l.map (fun x => ((g x).map h).sum)).sum := by
  intro l
  induction l with
  | nil => rfl
  | cons x xs ih =>
    rw [List.flatMap_cons, List.map_append, List.sum_append, ih,
      List.map_cons, List.sum_cons]

theorem create_snd_eq (R : List (List Char × List Char)) (D : List Char) :
    (create_standardized_latex R D).2 = ((parseCites D).map
      (fun seg => match seg with
        | Seg.chr _ => 0
        | Seg.cite p => (replace_cite_keys R p).2)).sum := rfl

theorem create_fst_eq_renderOut (R : List (List Char × List Char)) (D : List Char) :
    (create_standardized_latex R D).1 =
      renderOut (fun p => (replace_cite_keys R p).1) D := by
  unfold create_standardized_latex renderOut
  have hfun : (fun seg => match seg with
      | Seg.chr c => [c]
      | Seg.cite p => citeHead ++ (replace_cite_keys R p).1 ++ ['}']) =
      renderSegF (fun p => (replace_cite_keys R p).1) := by
    funext seg
    cases seg <;> rfl
  rw [hfun]

/-- C2 (amended): for a rename map `R` whose values are clean keys — no
comma, no closing brace, already trimmed, and not themselves keys of `R` —
rewriting the output of the rewriter again with the same `R` makes zero
further replacements.  (Unrestricted the claim fails, see the
counterexample: a value that is also a key, e.g. an identity mapping,
is replaced again.) -/

theorem rewrite_second_pass_zero (R : List (List Char × List Char)) (D : List Char)
    (hR : ∀ pr ∈ R, (',' : Char) ∉ pr.2 ∧ ('}' : Char) ∉ pr.2 ∧
      pyStrip pr.2 = pr.2 ∧ alookup pr.2 R = none) :
    (create_standardized_latex R (create_standardized_latex R D).1).2 = 0 := by
  have hR2 : ∀ pr ∈ R, ('}' : Char) ∉ pr.2 := fun pr h => (hR pr h).2.1
  have hRc : ∀ pr ∈ R, (',' : Char) ∉ pr.2 ∧ pyStrip pr.2 = pr.2 ∧
      alookup pr.2 R = none :=
    fun pr h => ⟨(hR pr h).1, (hR pr h).2.2⟩
  have hf : ∀ p, p ≠ [] → '}' ∉ p → '}' ∉ (fun p => (replace_cite_keys R p).1) p :=
    fun p _ hnb => subPayload_no_rbrace R hR2 hnb
  rw [create_snd_eq, create_fst_eq_renderOut]
  rw [parse_renderOut (fun p => (replace_cite_keys R p).1) hf D.length D le_rfl]
  rw [sum_map_flatMap]
  apply List.sum_eq_zero
  intro x hx
  rcases List.mem_map.mp hx with ⟨seg, hseg, hxeq⟩
  rw [← hxeq]
  cases seg with
  | chr c => rfl
  | cite p =>
    rcases payload_wf D.length D le_rfl p hseg with ⟨hpne, hpnb⟩
    by_cases hfp : (replace_cite_keys R p).1 = []
    · simp only [expandSeg]
      rw [if_pos hfp]
      rfl
    · have hexp : expandSeg (fun p => (replace_cite_keys R p).1) (Seg.cite p) =
          [Seg.cite ((replace_cite_keys R p).1)] := by
        simp only [expandSeg]
        rw [if_neg hfp]
      rw [hexp]
      suffices h : (replace_cite_keys R ((replace_cite_keys R p).1)).2 = 0 by
        simp [h]
      have hfst : (replace_cite_keys R p).1 = joinSep ',' (newKeys R p) :=
        replace_cite_keys_fst R p
      have hnne : newKeys R p ≠ [] := by
        intro hnil
        apply hfp
        rw [hfst, hnil]
        rfl
      apply (replace_cite_keys_unmapped R ((replace_cite_keys R p).1) ?_).2
      rw [hfst]
      exact payloadKeys_joinSep_unmapped R hnne (fun κ hκ => newKeys_clean R hRc hκ)

/-- C2 (witness): the map `{a ↦ b}` has clean values, and the second rewrite
of `\cite{a}` indeed reports zero replacements. -/

theorem rewrite_second_pass_zero_witness :
    (∀ pr ∈ ([(['a'], ['b'])] : List (List Char × List Char)),
      (',' : Char) ∉ pr.2 ∧ ('}' : Char) ∉ pr.2 ∧
      pyStrip pr.2 = pr.2 ∧ alookup pr.2 [(['a'], ['b'])] = none) ∧
    (create_standardized_latex [(['a'], ['b'])]
      (create_standardized_latex [(['a'], ['b'])]
        ['\\', 'c', 'i', 't', 'e', '{', 'a', '}']).1).2 = 0 :=
  ⟨by decide, rewrite_second_pass_zero [(['a'], ['b'])]
    ['\\', 'c', 'i', 't', 'e', '{', 'a', '}'] (by decide)⟩

/-! ## Claim C3 — no data loss -/

theorem stripLineAux_no_pct : ∀ (l : List Char), '%' ∉ l → ∀ esc,
    stripLineAux esc l = l := by
  intro l
  induction l with
  | nil => intro _ esc; rfl
  | cons c cs ih =>
    intro h esc
    have hc : ¬ c = '%' := fun hcc => h (hcc ▸ List.mem_cons_self c cs)
    simp only [stripLineAux]
    rw [if_neg (by simp [hc]), ih (fun hm => h (List.mem_cons_of_mem c hm)) _]

theorem stripLine_no_pct {l : List Char} (h : '%' ∉ l) : stripLine l = l :=
  stripLineAux_no_pct l h false

theorem joinSep_cons_head (sep c : Char) (p : List Char) (ps : List (List Char)) :
    joinSep sep ((c :: p) :: ps) = c :: joinSep sep (p :: ps) := by
  cases ps with
  | nil => rfl
  | cons q r => simp [joinSep]

theorem joinSep_pySplit (sep : Char) : ∀ (s : List Char),
    joinSep sep (pySplit sep s) = s := by
  intro s
  induction s with
  | nil => rfl
  | cons c cs ih =>
    by_cases hc : c = sep
    · rw [hc, pySplit_cons_sep]
      cases hps : pySplit sep cs with
      | nil => exact absurd hps (pySplit_ne_nil sep cs)
      | cons q r =>
        have hj : joinSep sep ([] :: q :: r) = sep :: joinSep sep (q :: r) := by
          simp [joinSep]
        rw [hj, ← hps, ih]
    · cases hps : pySplit sep cs with
      | nil => exact absurd hps (pySplit_ne_nil sep cs)
      | cons q r =>
        rw [pySplit_cons_ne sep c hc hps, joinSep_cons_head, ← hps, ih]

theorem mem_rawCiteKeys {s k : List Char} :
    k ∈ rawCiteKeys s ↔ ∃ p, Seg.cite p ∈ parseCites s ∧ k ∈ payloadKeys p := by
  unfold rawCiteKeys
  rw [List.mem_flatMap]
  constructor
  · rintro ⟨seg, hseg, hk⟩
    cases seg with
    | chr c => simp at hk
    | cite p => exact ⟨p, hseg, hk⟩
  · rintro ⟨p, hp, hk⟩
    exact ⟨Seg.cite p, hp, hk⟩

/-- C3 (counterexample): in the document `\cite{a % x` + newline + `}`, the
extractor (which strips the comment) returns the raw key `a`, which is not in
the (empty) rename map; but the rewriter (which does not strip comments) sees
the payload `a % x` and keeps the segment `a % x`, so `a` does not appear as
a segment of any citation marker of the rewritten document — the claim fails
as stated. -/

theorem extracted_key_lost_in_comment :
    (['a'] ∈ extract_citations
      ['\\', 'c', 'i', 't', 'e', '{', 'a', ' ', '%', ' ', 'x', '\n', '}']) ∧
    alookup ['a'] ([] : List (List Char × List Char)) = none ∧
    ['a'] ∉ rawCiteKeys (create_standardized_latex []
      ['\\', 'c', 'i', 't', 'e', '{', 'a', ' ', '%', ' ', 'x', '\n', '}']).1 := by
  decide

/-- C3 (amended): for a document containing no comment character `%` and a
rename map whose values contain no closing brace, every raw key returned by
`extract_citations` is either a key of the rename map or appears verbatim as
a (trimmed, nonempty) segment inside a citation marker of the rewritten
document.  (With comments the extractor and the rewriter disagree about the
markers, see the counterexample.) -/

theorem extract_keys_preserved_no_comments (R : List (List Char × List Char))
    (D k : List Char) (hpct : '%' ∉ D)
    (hR : ∀ pr ∈ R, ('}' : Char) ∉ pr.2)
    (hk : k ∈ extract_citations D) (hun : alookup k R = none) :
    k ∈ rawCiteKeys (create_standardized_latex R D).1 := by
  have hclean : joinSep '\n' ((pySplit '\n' D).map stripLine) = D := by
    have hmap : (pySplit '\n' D).map stripLine = pySplit '\n' D := by
      conv_rhs => rw [← List.map_id (pySplit '\n' D)]
      apply List.map_congr_left
      intro line hline
      have hnp : '%' ∉ line :=
        fun hmem => hpct (mem_of_mem_pySplit '\n' D line hline '%' hmem)
      exact stripLine_no_pct hnp
    rw [hmap, joinSep_pySplit]
  unfold extract_citations at hk
  rw [List.mem_dedup, hclean] at hk
  rcases mem_rawCiteKeys.mp hk with ⟨p, hp, hkp⟩
  rcases payloadKeys_props hkp with ⟨hkne, hkcm, hktrim, _⟩
  have hknew : k ∈ newKeys R p := mem_newKeys_of_unmapped hkp hun
  have hfne : (replace_cite_keys R p).1 ≠ [] := by
    rw [replace_cite_keys_fst]
    exact joinSep_ne_nil ',' hknew hkne
  have hf : ∀ q, q ≠ [] → '}' ∉ q →
      '}' ∉ (fun q => (replace_cite_keys R q).1) q :=
    fun q _ hnb => subPayload_no_rbrace R hR hnb
  rw [create_fst_eq_renderOut]
  refine mem_rawCiteKeys.mpr ⟨(replace_cite_keys R p).1, ?_, ?_⟩
  · rw [parse_renderOut _ hf D.length D le_rfl]
    refine List.mem_flatMap.mpr ⟨Seg.cite p, hp, ?_⟩
    have hexp : expandSeg (fun q => (replace_cite_keys R q).1) (Seg.cite p) =
        [Seg.cite ((replace_cite_keys R p).1)] := by
      simp only [expandSeg]
      rw [if_neg hfne]
    rw [hexp]
    exact List.mem_singleton.mpr rfl
  · rw [replace_cite_keys_fst]
    unfold payloadKeys
    apply List.mem_filter.mpr
    constructor
    · apply List.mem_map.mpr
      refine ⟨k, ?_, hktrim⟩
      rw [pySplit_joinSep ',' _ (List.ne_nil_of_mem hknew)]
      apply List.mem_flatMap.mpr
      refine ⟨k, hknew, ?_⟩
      rw [pySplit_of_not_mem ',' k hkcm]
      exact List.mem_singleton.mpr rfl
    · cases k with
      | nil => exact absurd rfl hkne
      | cons a b => rfl

/-- C3 (witness): document `\cite{a,c}` (no comments), rename map `{a ↦ b}`
(values brace-free): the extracted key `c` is unmapped and survives as a
segment of a marker of the rewritten document. -/

theorem extract_keys_preserved_no_comments_witness :
    (('%' ∉ ['\\', 'c', 'i', 't', 'e', '{', 'a', ',', 'c', '}']) ∧
      (∀ pr ∈ ([(['a'], ['b'])] : List (List Char × List Char)),
        ('}' : Char) ∉ pr.2) ∧
      (['c'] ∈ extract_citations ['\\', 'c', 'i', 't', 'e', '{', 'a', ',', 'c', '}']) ∧
      alookup ['c'] ([(['a'], ['b'])] : List (List Char × List Char)) = none) ∧
    ['c'] ∈ rawCiteKeys (create_standardized_latex [(['a'], ['b'])]
      ['\\', 'c', 'i', 't', 'e', '{', 'a', ',', 'c', '}']).1 :=
  ⟨⟨by decide, by decide, by decide, by decide⟩,
    extract_keys_preserved_no_comments [(['a'], ['b'])]
      ['\\', 'c', 'i', 't', 'e', '{', 'a', ',', 'c', '}'] ['c']
      (by decide) (by decide) (by decide) (by decide)⟩

end InspireBib

